import Mathlib

/-!
Shallow embedding of the JSON Schema normalizer in
`src/fences/json_schema/normlaize.py` (sic), together with proofs about
the normalization pipeline: the keyword merge algebra, the schema merger,
the conditional simplifier, the reference inliner, the DNF rewriter, the
normalizer driver and the well-formedness checker.

Python values are modelled by the inductive type `JVal`; Python dicts are
ordered association lists with unique string keys (insertion order is
significant, as in CPython), and Python lists are Lean lists. Exceptions
are modelled with an error monad; unbounded recursion is modelled with an
explicit fuel parameter, where running out of fuel is distinguished from a
raised exception.
-/

set_option maxRecDepth 100000

/-- Python value model: null, bool, int, str, list, dict. Dicts keep
insertion order and have unique keys. Floats are not modelled: every
numeric value the claims exercise is an integer. -/
inductive JVal where
  | null
  | bool (b : Bool)
  | int (n : Int)
  | str (s : String)
  | arr (elems : List JVal)
  | obj (entries : List (String × JVal))
deriving Repr

abbrev Entries := List (String × JVal)

mutual

/-- Structural equality test on `JVal` (Python `==` on JSON trees). -/
def JVal.beq : JVal → JVal → Bool
  | .null, .null => true
  | .bool a, .bool b => a == b
  | .int a, .int b => a == b
  | .str a, .str b => a == b
  | .arr a, .arr b => JVal.beqList a b
  | .obj a, .obj b => JVal.beqEntries a b
  | _, _ => false

/-- Pointwise `JVal.beq` on lists. -/
def JVal.beqList : List JVal → List JVal → Bool
  | [], [] => true
  | a :: as, b :: bs => JVal.beq a b && JVal.beqList as bs
  | _, _ => false

/-- Pointwise `JVal.beq` on ordered key-value lists. -/
def JVal.beqEntries : Entries → Entries → Bool
  | [], [] => true
  | (k1, v1) :: as, (k2, v2) :: bs =>
      k1 == k2 && JVal.beq v1 v2 && JVal.beqEntries as bs
  | _, _ => false

end

mutual

theorem JVal.eq_of_beq : ∀ {a b : JVal}, JVal.beq a b = true → a = b
  | .null, .null, _ => rfl
  | .bool a, .bool b, h => by simp [JVal.beq] at h; simp [h]
  | .int a, .int b, h => by simp [JVal.beq] at h; simp [h]
  | .str a, .str b, h => by simp [JVal.beq] at h; simp [h]
  | .arr a, .arr b, h => by
      simp [JVal.beq] at h
      exact congrArg JVal.arr (JVal.eqList_of_beq h)
  | .obj a, .obj b, h => by
      simp [JVal.beq] at h
      exact congrArg JVal.obj (JVal.eqEntries_of_beq h)

theorem JVal.eqList_of_beq : ∀ {a b : List JVal}, JVal.beqList a b = true → a = b
  | [], [], _ => rfl
  | x :: xs, y :: ys, h => by
      simp [JVal.beqList] at h
      have h1 := JVal.eq_of_beq h.1
      have h2 := JVal.eqList_of_beq h.2
      simp [h1, h2]

theorem JVal.eqEntries_of_beq :
    ∀ {a b : Entries}, JVal.beqEntries a b = true → a = b
  | [], [], _ => rfl
  | (k1, v1) :: xs, (k2, v2) :: ys, h => by
      simp [JVal.beqEntries] at h
      have h1 := JVal.eq_of_beq h.1.2
      have h2 := JVal.eqEntries_of_beq h.2
      simp [h.1.1, h1, h2]

end

mutual

theorem JVal.beq_refl : ∀ (a : JVal), JVal.beq a a = true
  | .null => rfl
  | .bool a => by simp [JVal.beq]
  | .int a => by simp [JVal.beq]
  | .str a => by simp [JVal.beq]
  | .arr a => by simp [JVal.beq]; exact JVal.beqList_refl a
  | .obj a => by simp [JVal.beq]; exact JVal.beqEntries_refl a

theorem JVal.beqList_refl : ∀ (a : List JVal), JVal.beqList a a = true
  | [] => rfl
  | x :: xs => by
      simp [JVal.beqList]
      exact ⟨JVal.beq_refl x, JVal.beqList_refl xs⟩

theorem JVal.beqEntries_refl : ∀ (a : Entries), JVal.beqEntries a a = true
  | [] => rfl
  | (k, v) :: xs => by
      simp [JVal.beqEntries]
      exact ⟨JVal.beq_refl v, JVal.beqEntries_refl xs⟩

end

instance : DecidableEq JVal := fun a b =>
  decidable_of_iff (JVal.beq a b = true)
    ⟨JVal.eq_of_beq, fun h => h ▸ JVal.beq_refl a⟩

namespace JVal

/-- Python `key in d` on an association list. -/
def containsKey (m : Entries) (k : String) : Bool :=
  m.any (fun p => p.1 == k)

/-- Python `d.get(key)`: the first value stored under `k`, if any. -/
def lookup (m : Entries) (k : String) : Option JVal :=
  (m.find? (fun p => p.1 == k)).map Prod.snd

/-- Python `d.get(key, default)`. -/
def lookupD (m : Entries) (k : String) (d : JVal) : JVal :=
  (lookup m k).getD d

/-- Python `d[key] = v`: replace in place when the key exists (keeping its
position), append otherwise. -/
def setKey (m : Entries) (k : String) (v : JVal) : Entries :=
  if containsKey m k then
    m.map (fun p => if p.1 == k then (k, v) else p)
  else
    m ++ [(k, v)]

/-- Python `del d[key]` / `d.pop(key, None)`: drop the pair, keep order. -/
def eraseKey (m : Entries) (k : String) : Entries :=
  m.filter (fun p => !(p.1 == k))

end JVal

open JVal

/-- Constant `NORM_FALSE` of the source: an unsatisfiable one-branch form. -/
def NORM_FALSE : JVal := .obj [("anyOf", .arr [.obj [("type", .arr [])]])]

/-- Constant `NORM_TRUE` of the source: a single empty branch accepting all. -/
def NORM_TRUE : JVal := .obj [("anyOf", .arr [.obj []])]

/-!
Serialization: Python `json.dumps` with its default settings, as used by
`_normalize` to fingerprint a schema. Defaults: separators are a comma
followed by a space and a colon followed by a space, `ensure_ascii` is
true, and object keys are emitted in insertion order (`sort_keys` is NOT
set by the source). Curly braces are written with `\x7b` and `\x7d`
escapes throughout this file.
-/

/-- Hexadecimal digit character (lowercase), for `0 ≤ n < 16`. -/
def hexDigit (n : Nat) : Char :=
  if n < 10 then Char.ofNat (48 + n) else Char.ofNat (87 + n)

/-- Four-digit lowercase hex form of a code unit, for the `\uXXXX` escapes
that `json.dumps` emits when `ensure_ascii` is active. -/
def hex4 (n : Nat) : String :=
  String.mk [hexDigit (n / 4096 % 16), hexDigit (n / 256 % 16),
             hexDigit (n / 16 % 16), hexDigit (n % 16)]

/-- Escape of a single character inside a JSON string literal, following
the `ensure_ascii` table of CPython `json.dumps`: two-character escapes
for backslash, quote, backspace, form feed, newline, carriage return and
tab; `\uXXXX` (with a surrogate pair above the BMP) for every other
character outside `0x20..0x7e`; the character itself otherwise. -/
def jsonEscapeChar (c : Char) : String :=
  let n := c.toNat
  if n == 34 then "\\\""
  else if n == 92 then "\\\\"
  else if n == 8 then "\\b"
  else if n == 12 then "\\f"
  else if n == 10 then "\\n"
  else if n == 13 then "\\r"
  else if n == 9 then "\\t"
  else if n < 32 || n > 126 then
    if n < 65536 then "\\u" ++ hex4 n
    else
      let m := n - 65536
      "\\u" ++ hex4 (55296 + m / 1024) ++ "\\u" ++ hex4 (56320 + m % 1024)
  else String.singleton c

/-- JSON string literal of `s`, double quotes included. -/
def jsonEscape (s : String) : String :=
  "\"" ++ String.join (s.toList.map jsonEscapeChar) ++ "\""

mutual

/-- Python `json.dumps(v)` with default settings (see the section note). -/
def jdump : JVal → String
  | .null => "null"
  | .bool true => "true"
  | .bool false => "false"
  | .int n => toString n
  | .str s => jsonEscape s
  | .arr l => "[" ++ jdumpList l ++ "]"
  | .obj m => "\x7b" ++ jdumpEntries m ++ "\x7d"

/-- Comma-separated dump of array elements. -/
def jdumpList : List JVal → String
  | [] => ""
  | [x] => jdump x
  | x :: xs => jdump x ++ ", " ++ jdumpList xs

/-- Comma-separated dump of object entries, keys in insertion order. -/
def jdumpEntries : Entries → String
  | [] => ""
  | [(k, v)] => jsonEscape k ++ ": " ++ jdump v
  | (k, v) :: xs => jsonEscape k ++ ": " ++ jdump v ++ ", " ++ jdumpEntries xs

end

/-!
SHA-1, as `hashlib.sha1(...).hexdigest()` computes it on the UTF-8
encoding of the dumped schema. Words are naturals taken modulo `2 ^ 32`;
the bitwise operations are defined by a 32-step structural recursion so
that concrete hashes evaluate inside the kernel.
-/

/-- UTF-8 bytes of one character. -/
def charUtf8 (c : Char) : List Nat :=
  let n := c.toNat
  if n < 128 then [n]
  else if n < 2048 then [192 + n / 64, 128 + n % 64]
  else if n < 65536 then [224 + n / 4096, 128 + n / 64 % 64, 128 + n % 64]
  else [240 + n / 262144, 128 + n / 4096 % 64, 128 + n / 64 % 64, 128 + n % 64]

/-- UTF-8 bytes of a string (Python `str.encode()`). -/
def utf8Bytes (s : String) : List Nat :=
  (s.toList.map charUtf8).flatten

/-- Truncation to a 32-bit word. -/
def w32 (n : Nat) : Nat := n % 4294967296

/-- Bitwise combination of the low `k` bits of two naturals. -/
def bitsOp (f : Bool → Bool → Bool) : Nat → Nat → Nat → Nat
  | 0, _, _ => 0
  | k + 1, a, b =>
      (if f (a % 2 == 1) (b % 2 == 1) then 1 else 0) + 2 * bitsOp f k (a / 2) (b / 2)

/-- 32-bit bitwise AND. -/
def landW (a b : Nat) : Nat := bitsOp (fun x y => x && y) 32 a b

/-- 32-bit bitwise OR. -/
def lorW (a b : Nat) : Nat := bitsOp (fun x y => x || y) 32 a b

/-- 32-bit bitwise XOR. -/
def lxorW (a b : Nat) : Nat := bitsOp (fun x y => x != y) 32 a b

/-- 32-bit bitwise NOT of a word below `2 ^ 32`. -/
def lnotW (a : Nat) : Nat := 4294967295 - a

/-- Left rotation of a 32-bit word by `s` places, for `s ≤ 32`. -/
def rotlW (s x : Nat) : Nat := w32 (x * 2 ^ s + x / 2 ^ (32 - s))

/-- Big-endian bytes (8 of them) of the 64-bit message bit length. -/
def be8 (n : Nat) : List Nat :=
  [n / 72057594037927936 % 256, n / 281474976710656 % 256,
   n / 1099511627776 % 256, n / 4294967296 % 256,
   n / 16777216 % 256, n / 65536 % 256, n / 256 % 256, n % 256]

/-- SHA-1 message padding: append `0x80`, zeros to 56 mod 64 bytes, and the
bit length, big endian. -/
def sha1pad (msg : List Nat) : List Nat :=
  let l := msg.length
  let p := (119 - l % 64) % 64
  msg ++ [128] ++ List.replicate p 0 ++ be8 (8 * l)

/-- Big-endian 32-bit words from a byte list whose length is a multiple
of 4. -/
def toWords : List Nat → List Nat
  | b0 :: b1 :: b2 :: b3 :: rest =>
      (((b0 * 256 + b1) * 256 + b2) * 256 + b3) :: toWords rest
  | _ => []

/-- Message-schedule extension: prepend `k` new words to the reversed word
list (newest first), each the rotation of the XOR of the words 3, 8, 14
and 16 places back. -/
def sha1sched : Nat → List Nat → List Nat
  | 0, ws => ws
  | k + 1, ws =>
      let g (i : Nat) : Nat := ws.getD i 0
      sha1sched k (rotlW 1 (lxorW (lxorW (g 2) (g 7)) (lxorW (g 13) (g 15))) :: ws)

/-- Round function of SHA-1 for round `i`. -/
def sha1f (i b c d : Nat) : Nat :=
  if i < 20 then lorW (landW b c) (landW (lnotW b) d)
  else if i < 40 then lxorW (lxorW b c) d
  else if i < 60 then lorW (lorW (landW b c) (landW b d)) (landW c d)
  else lxorW (lxorW b c) d

/-- Round constant of SHA-1 for round `i`. -/
def sha1k (i : Nat) : Nat :=
  if i < 20 then 1518500249
  else if i < 40 then 1859775393
  else if i < 60 then 2400959708
  else 3395469782

/-- The 80 compression rounds, driven by the scheduled word list. -/
def sha1rounds : Nat → List Nat → Nat × Nat × Nat × Nat × Nat → Nat × Nat × Nat × Nat × Nat
  | _, [], st => st
  | i, w :: ws, (a, b, c, d, e) =>
      let t := w32 (rotlW 5 a + sha1f i b c d + e + sha1k i + w)
      sha1rounds (i + 1) ws (t, a, rotlW 30 b, c, d)

/-- Block iteration: consume 16 words at a time, updating the running hash
state. -/
def sha1blocks : List Nat → Nat × Nat × Nat × Nat × Nat → Nat × Nat × Nat × Nat × Nat
  | w0 :: w1 :: w2 :: w3 :: w4 :: w5 :: w6 :: w7 ::
    w8 :: w9 :: w10 :: w11 :: w12 :: w13 :: w14 :: w15 :: rest, (h0, h1, h2, h3, h4) =>
      let ws := [w0, w1, w2, w3, w4, w5, w6, w7, w8, w9, w10, w11, w12, w13, w14, w15]
      let full := (sha1sched 64 ws.reverse).reverse
      let (a, b, c, d, e) := sha1rounds 0 full (h0, h1, h2, h3, h4)
      sha1blocks rest (w32 (h0 + a), w32 (h1 + b), w32 (h2 + c), w32 (h3 + d), w32 (h4 + e))
  | _, st => st

/-- Eight-digit lowercase hex form of a 32-bit word. -/
def hex8 (n : Nat) : String :=
  hex4 (n / 65536) ++ hex4 (n % 65536)

/-- `hashlib.sha1(bytes).hexdigest()`. -/
def sha1Hex (msg : List Nat) : String :=
  let (h0, h1, h2, h3, h4) :=
    sha1blocks (toWords (sha1pad msg))
      (1732584193, 4023233417, 2562383102, 271733878, 3285377520)
  hex8 h0 ++ hex8 h1 ++ hex8 h2 ++ hex8 h3 ++ hex8 h4

/-- Fingerprint of a schema, as `_normalize` computes it:
`hashlib.sha1(json.dumps(schema).encode()).hexdigest()`. -/
def fingerprint (s : JVal) : String :=
  sha1Hex (utf8Bytes (jdump s))

example : jdump (.obj [("a", .int 1), ("anyOf", .arr [.bool true])])
    = "\x7b\"a\": 1, \"anyOf\": [true]\x7d" := by decide

example : sha1Hex (utf8Bytes "abc") = "a9993e364706816aba3e25717850c26c9cd0d89d" := by
  decide

/-!
Error and fuel discipline. `NormalizationException` and the Python
runtime errors (`TypeError`, `AttributeError`, `KeyError`,
`AssertionError`) are all modelled as `NErr.exc` with a message;
`NErr.fuel` marks exhaustion of the explicit recursion fuel and models
non-termination (a computation that returns `.error .fuel` for every
fuel does not terminate in Python).
-/

/-- Failure of an embedded computation: out of fuel, or a raised Python
exception. -/
inductive NErr where
  | fuel
  | exc (msg : String)
deriving DecidableEq, Repr

/-- Result monad of the embedding. -/
abbrev Res (α : Type) : Type := Except NErr α

instance {α : Type} [DecidableEq α] : DecidableEq (Res α) := fun a b =>
  match a, b with
  | .ok x, .ok y => decidable_of_iff (x = y) ⟨fun h => h ▸ rfl, fun h => by cases h; rfl⟩
  | .error x, .error y =>
      decidable_of_iff (x = y) ⟨fun h => h ▸ rfl, fun h => by cases h; rfl⟩
  | .ok _, .error _ => isFalse (fun h => by cases h)
  | .error _, .ok _ => isFalse (fun h => by cases h)

/-- Raise a Python exception. -/
def raiseExc {α : Type} (m : String) : Res α := .error (.exc m)

/-- Python truthiness (`bool(v)`), used by the `deprecated` merger via
`a or b`. -/
def truthy : JVal → Bool
  | .null => false
  | .bool b => b
  | .int n => n != 0
  | .str s => !(s == "")
  | .arr l => !l.isEmpty
  | .obj m => !m.isEmpty

/-- View a value as a dict or fail like Python subscripting coerced would. -/
def asObj : JVal → Res Entries
  | .obj m => pure m
  | _ => raiseExc "TypeError"

/-- View a value as a list or fail. -/
def asArr : JVal → Res (List JVal)
  | .arr l => pure l
  | _ => raiseExc "TypeError"

/-- Wrapper dict `allOf: [a, b]` that several mergers build. -/
def allOf2 (a b : JVal) : JVal := .obj [("allOf", .arr [a, b])]

/-!
Keyword merge algebra: the `_simple_mergers` table of the source. Where
CPython iterates a `set` (the `type` and `required` mergers), the
iteration order of the result is unspecified; it is modelled here as
first-operand order followed by second-operand order, with duplicates
removed. None of the theorems below depend on that order. Mergers are
partial: applying one to operands of the wrong shape models the
`TypeError` the Python lambda would raise.
-/

/-- Hashability guard: Python `set(...)` over a list raises `TypeError`
when an element is a list or dict. -/
def hashable : JVal → Bool
  | .arr _ => false
  | .obj _ => false
  | _ => true

/-- Source `_merge_type`: wrap scalar strings into singletons, then
intersect as sets. -/
def _merge_type (a b : JVal) : Res JVal := do
  let la ← match a with
    | .str s => pure [JVal.str s]
    | .arr l => pure l
    | _ => raiseExc "TypeError"
  let lb ← match b with
    | .str s => pure [JVal.str s]
    | .arr l => pure l
    | _ => raiseExc "TypeError"
  if la.all hashable && lb.all hashable then
    pure (.arr ((la.dedup).filter (fun x => lb.contains x)))
  else raiseExc "TypeError"

/-- Merger of `required`: set union of the two name lists. -/
def mergeRequired (a b : JVal) : Res JVal := do
  let la ← asArr a
  let lb ← asArr b
  if la.all hashable && lb.all hashable then
    pure (.arr (la.dedup ++ (lb.dedup.filter (fun x => !la.contains x))))
  else raiseExc "TypeError"

/-- Merger of `multipleOf`: `abs(a*b) // math.gcd(a, b)` on integers. -/
def mergeMultipleOf (a b : JVal) : Res JVal := do
  match a, b with
  | .int x, .int y =>
      let g := Nat.gcd x.natAbs y.natAbs
      if g == 0 then raiseExc "ZeroDivisionError"
      else pure (.int (((x * y).natAbs / g : Nat) : Int))
  | _, _ => raiseExc "TypeError"

/-- Numeric `max` merger (`minimum`, `minItems`, `minLength`). -/
def mergeMax (a b : JVal) : Res JVal := do
  match a, b with
  | .int x, .int y => pure (.int (max x y))
  | _, _ => raiseExc "TypeError"

/-- Numeric `min` merger (`maximum`, `maxLength`). -/
def mergeMin (a b : JVal) : Res JVal := do
  match a, b with
  | .int x, .int y => pure (.int (min x y))
  | _, _ => raiseExc "TypeError"

/-- Merger of `pattern`: the textual conjunction `"(a)&(b)"`. -/
def mergePattern (a b : JVal) : Res JVal := do
  match a, b with
  | .str x, .str y => pure (.str ("(" ++ x ++ ")&(" ++ y ++ ")"))
  | _, _ => raiseExc "TypeError"

/-- Merger of `enum`: Python `a + b` (list concatenation; also integer or
string addition, which the schema grammar never exercises). -/
def mergeEnum (a b : JVal) : Res JVal := do
  match a, b with
  | .arr x, .arr y => pure (.arr (x ++ y))
  | .int x, .int y => pure (.int (x + y))
  | .str x, .str y => pure (.str (x ++ y))
  | _, _ => raiseExc "TypeError"

/-- Keys of the `_simple_mergers` table, in source order. -/
def simpleMergerKeys : List String :=
  ["required", "multipleOf", "items", "minimum", "maximum", "type", "minItems",
   "pattern", "minLength", "maxLength", "const", "enum", "format",
   "dependentRequired", "deprecated"]

/-- Dispatch into the `_simple_mergers` table. -/
def applySimpleMerger (k : String) (a b : JVal) : Res JVal :=
  if k == "required" then mergeRequired a b
  else if k == "multipleOf" then mergeMultipleOf a b
  else if k == "items" then pure (allOf2 a b)
  else if k == "minimum" then mergeMax a b
  else if k == "maximum" then mergeMin a b
  else if k == "type" then _merge_type a b
  else if k == "minItems" then mergeMax a b
  else if k == "pattern" then mergePattern a b
  else if k == "minLength" then mergeMax a b
  else if k == "maxLength" then mergeMin a b
  else if k == "const" then pure a
  else if k == "enum" then mergeEnum a b
  else if k == "format" then pure a
  else if k == "dependentRequired" then pure a
  else if k == "deprecated" then pure (if truthy a then a else b)
  else raiseExc "not a simple merger"

/-- Source `_merge_properties`: merge `properties` and
`additionalProperties` of the two operand dicts together. The returned
dict holds the first operand's property names in their order (each value
conjoined with the matching property or the `additionalProperties` of the
second operand), followed by the second operand's remaining names. -/
def _merge_properties (result to_add : Entries) : Res JVal := do
  let pr ← match lookup result "properties" with
    | none => pure ([] : Entries)
    | some (.obj m) => pure m
    | some _ => raiseExc "AttributeError"
  let pa ← match lookup to_add "properties" with
    | none => pure ([] : Entries)
    | some (.obj m) => pure m
    | some _ => raiseExc "AttributeeError"
  let ar := lookup result "additionalProperties"
  let aa := lookup to_add "additionalProperties"
  let part1 : Entries := pr.map (fun p =>
    match lookup pa p.1 with
    | some t => (p.1, allOf2 p.2 t)
    | none =>
        match aa with
        | none => (p.1, p.2)
        | some ap => (p.1, allOf2 p.2 ap))
  let part2 : Entries := (pa.filter (fun p => !containsKey pr p.1)).map (fun p =>
    match ar with
    | none => (p.1, p.2)
    | some ap => (p.1, allOf2 p.2 ap))
  pure (.obj (part1 ++ part2))

/-- Source `_merge_prefix_items`: align `prefixItems` and `items` of the
two operand dicts. The shorter prefix list is padded with that operand's
`items` (default `NORM_TRUE`) and the two are zipped into `allOf` pairs.
(In Python the padding `+=` mutates the list object in place; the pure
model returns the padded value, which is observationally equal here
because the merged result is rebuilt from it.) -/
def _merge_prefix_items (result to_add : Entries) : Res JVal := do
  let items_a := lookupD result "items" NORM_TRUE
  let items_b := lookupD to_add "items" NORM_TRUE
  let pa ← match lookup result "prefixItems" with
    | none => pure ([] : List JVal)
    | some (.arr l) => pure l
    | some _ => raiseExc "AssertionError"
  let pb ← match lookup to_add "prefixItems" with
    | none => pure ([] : List JVal)
    | some (.arr l) => pure l
    | some _ => raiseExc "AssertionError"
  let pa2 := if pa.length > pb.length then pa
             else pa ++ List.replicate (pb.length - pa.length) items_a
  let pb2 := if pa.length > pb.length then pb ++ List.replicate (pa.length - pb.length) items_b
             else pb
  pure (.arr (List.zipWith (fun i j => allOf2 i j) pa2 pb2))

/-- One entry of the `result` walk of `_merge` (source lines 132 to 142):
a key absent from `to_add` is left alone; a shared key goes through its
simple merger, is skipped when complex, and raises
`NormalizationException` otherwise. -/
def _merge_simple_stage (to_add : Entries) (p : String × JVal) : Res (String × JVal) :=
  match lookup to_add p.1 with
  | none => pure p
  | some w =>
      if simpleMergerKeys.contains p.1 then do
        let v ← applySimpleMerger p.1 p.2 w
        pure (p.1, v)
      else if p.1 == "prefixItems" || p.1 == "properties" then pure p
      else raiseExc ("Do not know how to merge '" ++ p.1 ++ "'")

/-- The `result` walk of `_merge`, entry by entry in dict order, stopping
at the first raised exception. -/
def _merge_stage2 (to_add : Entries) : Entries → Res Entries
  | [] => pure []
  | p :: rest => do
      let q ← _merge_simple_stage to_add p
      let rest2 ← _merge_stage2 to_add rest
      pure (q :: rest2)

/-- The `prefixItems` complex-merger step of `_merge`. -/
def _merge_pi_stage (result to_add : Entries) : Res Entries :=
  if containsKey result "prefixItems" || containsKey to_add "prefixItems" then do
    let v ← _merge_prefix_items result to_add
    pure (setKey result "prefixItems" v)
  else pure result

/-- The `properties` complex-merger step of `_merge`, run on the result
of the `prefixItems` step. -/
def _merge_props_stage (r1 to_add : Entries) : Res Entries :=
  if containsKey r1 "properties" || containsKey to_add "properties" then do
    let v ← _merge_properties r1 to_add
    pure (setKey r1 "properties" v)
  else pure r1

/-- Stage (1) of `_merge` (source lines 128 to 130): run each complex
merger (`prefixItems` first, then `properties`) when either operand
holds its key, storing the combined value into `result` in place. -/
def _merge_complex_stage (result to_add : Entries) : Res Entries := do
  let r1 ← _merge_pi_stage result to_add
  _merge_props_stage r1 to_add

/-- Source `_merge(result, to_add)`: run the complex mergers, walk the
updated `result`, then copy the remaining keys of `to_add`. -/
def _merge (result to_add : Entries) : Res Entries := do
  let r2 ← _merge_complex_stage result to_add
  let r3 ← _merge_stage2 to_add r2
  let extra := to_add.filter (fun p =>
    !containsKey r3 p.1 && !(p.1 == "prefixItems") && !(p.1 == "properties"))
  pure (r3 ++ extra)

/-- One output branch of `merge_simple`: fold `_merge` over the
position-`idx` branch of every operand, skipping operands with an empty
branch list. -/
def mergeSimpleBranch (anyOfs : List (List JVal)) (idx : Nat) : Res Entries :=
  anyOfs.foldlM (fun acc ao =>
    if ao.isEmpty then pure acc
    else do
      let o ← asObj (ao.getD (idx % ao.length) .null)
      _merge acc o) ([] : Entries)

/-- Source `merge_simple(schemas)`: positional zip of branch lists. Every
operand must be a dict of shape `anyOf: list`; `num` is the longest
branch list; branch `idx` of the output merges branch `idx mod len`
of every operand. -/
def merge_simple (schemas : List JVal) : Res JVal := do
  if schemas.isEmpty then raiseExc "AssertionError" else
  let anyOfs ← schemas.mapM (fun s => do
    let m ← asObj s
    match lookup m "anyOf" with
    | some (.arr l) => pure l
    | some _ => raiseExc "TypeError"
    | none => raiseExc "KeyError")
  let num := (anyOfs.map List.length).foldl Nat.max 0
  let results ← (List.range num).mapM (fun idx => mergeSimpleBranch anyOfs idx)
  pure (.obj [("anyOf", .arr (results.map .obj))])

/-- Source `merge(schemas)`: delegates to `merge_simple`. -/
def merge (schemas : List JVal) : Res JVal := merge_simple schemas

example : merge [NORM_TRUE, .obj [("anyOf", .arr [.obj [("minimum", .int 3)]])]]
    = .ok (.obj [("anyOf", .arr [.obj [("minimum", .int 3)]])]) := by decide

example : _merge [("minimum", .int 1)] [("minimum", .int 5)]
    = .ok [("minimum", .int 5)] := by decide

example : _merge [("foo", .int 1)] [("foo", .int 5)]
    = .error (.exc "Do not know how to merge 'foo'") := by decide

/-- Wrapper dict `allOf: [a, b, c]` built by the conditional simplifier. -/
def allOf3 (a b c : JVal) : JVal := .obj [("allOf", .arr [a, b, c])]

/-- Value popped for `if`: Python `pop('if', None)`, where an explicit JSON
null is also `None`. -/
def popIf (m : Entries) : Option JVal :=
  match lookup m "if" with
  | some .null => none
  | some v => some v
  | none => none

/-- Value popped for `then` or `else`: Python `pop(kw, True)`, where an
explicit JSON null is `None` and absence defaults to `True`. -/
def popThenElse (m : Entries) (kw : String) : Option JVal :=
  match lookup m kw with
  | some .null => none
  | some v => some v
  | none => some (.bool true)

/-- Source `_simplify_if_then_else`: when any of `if`, `then`, `else` is
present, strip them and rewrite into a disjunction. The `else` branch
`allOf [side, not if, else]` is appended FIRST and the `then` branch
`allOf [side, if, then]` SECOND; a branch is elided when its guard value
is `None`. With no branches the result is `anyOf: [empty dict]`.
(The `resolver` parameter of the source is unused.) -/
def _simplify_if_then_else (m : Entries) : JVal :=
  if !containsKey m "if" && !containsKey m "then" && !containsKey m "else" then .obj m
  else
    let sub := eraseKey (eraseKey (eraseKey m "if") "then") "else"
    let ifv := popIf m
    let thv := popThenElse m "then"
    let elv := popThenElse m "else"
    let branch1 : List JVal :=
      match ifv, elv with
      | some i, some e => [allOf3 (.obj sub) (.obj [("not", i)]) e]
      | _, _ => []
    let branch2 : List JVal :=
      match ifv, thv with
      | some i, some t => [allOf3 (.obj sub) i t]
      | _, _ => []
    let any_of := branch1 ++ branch2
    if any_of.isEmpty then .obj [("anyOf", .arr [.obj []])]
    else .obj [("anyOf", .arr any_of)]

/-!
JSON pointers. The module `fences.json_schema.json_pointer` is not part
of the staged sources; the two operations the normalizer consumes are
modelled from the spec.
-/

/-- Modelled from the spec: `JsonPointer.from_string(s)` parses a
fragment-style pointer `"#/a/b/c"` into its unescaped path segments
(`"#"` alone addresses the root). -/
def pointerSegments (s : String) : Res (List String) :=
  if s == "#" then pure []
  else if s.startsWith "#/" then pure ((s.drop 2).splitOn "/")
  else raiseExc "UnresolvedRef"

/-- Modelled from the spec: `pointer.lookup(root)` walks the root schema
segment by segment (dict key or list index), returning the addressed
sub-schema node or raising `UnresolvedRef` when a segment is missing. -/
def pointerLookup (root : JVal) (segs : List String) : Res JVal :=
  segs.foldlM (fun cur seg =>
    match cur with
    | .obj m =>
        match lookup m seg with
        | some v => pure v
        | none => raiseExc "UnresolvedRef"
    | .arr l =>
        match seg.toNat? with
        | some i =>
            match l.get? i with
            | some v => pure v
            | none => raiseExc "UnresolvedRef"
        | none => raiseExc "UnresolvedRef"
    | _ => raiseExc "UnresolvedRef") root

/-- The `$ref` rewrite at the top of `_inline_refs`: when the dict holds
`$ref`, resolve the pointer against the root and wrap the remaining
side keys with the target in an `allOf` pair, flagging that a reference
was inlined; otherwise return the dict unchanged with the flag clear. -/
def _inline_ref_top (root : JVal) (m : Entries) : Res (Entries × Bool) :=
  if containsKey m "$ref" then do
    let p ← match lookup m "$ref" with
      | some (.str p) => pure p
      | _ => raiseExc "TypeError"
    let segs ← pointerSegments p
    let target ← pointerLookup root segs
    pure (([("allOf", JVal.arr [.obj (eraseKey m "$ref"), target])] : Entries), true)
  else pure (m, false)

mutual

/-- Source `_inline_refs(schema, resolver)`: booleans canonicalize to
`NORM_FALSE` (flag `False`) and `NORM_TRUE` (flag `True`); a dict holding
`$ref` is rewritten to `allOf [side, resolved target]` with the flag set;
the rewrite then recurses into every element of `anyOf`, `allOf` and
`oneOf` and into the value of `not`, storing the rewritten children back
and OR-ing their flags. The root schema is consulted through the
resolver. A non-dict, non-bool node fails (`schema.get` on it raises
`AttributeError`). Fuel decreases at every recursive call. -/
def _inline_refs : Nat → JVal → JVal → Res (JVal × Bool)
  | 0, _, _ => .error .fuel
  | _ + 1, _, .bool false => pure (NORM_FALSE, false)
  | _ + 1, _, .bool true => pure (NORM_TRUE, true)
  | fuel + 1, root, .obj m => do
      let (m1, c1) ← _inline_ref_top root m
      let (m2, c2) ← _inline_kw fuel root m1 "anyOf"
      let (m3, c3) ← _inline_kw fuel root m2 "allOf"
      let (m4, c4) ← _inline_kw fuel root m3 "oneOf"
      let (m5, c5) ←
        match lookup m4 "not" with
        | none => pure (m4, false)
        | some v => do
            let (v2, c) ← _inline_refs fuel root v
            pure (setKey m4 "not" v2, c)
      pure (.obj m5, c1 || c2 || c3 || c4 || c5)
  | _ + 1, _, _ => raiseExc "AttributeError"

/-- Recursion of `_inline_refs` into the element list of one logical
keyword, replacing each element in place. -/
def _inline_kw : Nat → JVal → Entries → String → Res (Entries × Bool)
  | 0, _, _, _ => .error .fuel
  | fuel + 1, root, m, kw => do
      match lookup m kw with
      | none => pure (m, false)
      | some (.arr l) => do
          let (l2, c) ← _inline_list fuel root l
          pure (setKey m kw (.arr l2), c)
      | some _ => raiseExc "TypeError"

/-- Recursion of `_inline_refs` along a list of sub-schemas. -/
def _inline_list : Nat → JVal → List JVal → Res (List JVal × Bool)
  | 0, _, _ => .error .fuel
  | _ + 1, _, [] => pure ([], false)
  | fuel + 1, root, x :: xs => do
      let (x2, c1) ← _inline_refs fuel root x
      let (xs2, c2) ← _inline_list fuel root xs
      pure (x2 :: xs2, c1 || c2)

end

/-- Branch list of a schema known to have shape `anyOf: list`
(`r['anyOf']` in the source). -/
def getAnyOf (v : JVal) : Res (List JVal) := do
  let m ← asObj v
  match lookup m "anyOf" with
  | some (.arr l) => pure l
  | some _ => raiseExc "TypeError"
  | none => raiseExc "KeyError"

mutual

/-- Source `_to_dnf(schema, resolver, new_refs)`: rewrite one (already
ref-inlined) node into `anyOf` of flat branches. Booleans canonicalize;
a dict is first run through the conditional simplifier, then:
`any_ofs` collects the flattened branches of every `anyOf` child (or a
single empty dict); `one_ofs` concatenates, once per `oneOf` child, the
branches of `merge` over ALL normalized `oneOf` children — in the source
the comprehension `invert(i) if i == idx else i` compares the schema `i`
to the integer `idx`, which is never true, and `invert` is the identity,
so every iteration merges the same unmodified list; `all_ofs` merges a
single branch holding the current node minus the logical keywords with
the rewritten `allOf` children; the result merges those three anyOf
forms. (`new_refs` is threaded by the source but never read or written
in this function, so the model omits it; the `resolver` is also unused.) -/
def _to_dnf : Nat → JVal → Res JVal
  | 0, _ => .error .fuel
  | _ + 1, .bool false => pure NORM_FALSE
  | _ + 1, .bool true => pure NORM_TRUE
  | fuel + 1, .obj m => do
      let m1 ← asObj (_simplify_if_then_else m)
      let any_ofs ← _dnf_anyofs fuel m1
      let one_ofs ← _dnf_oneofs fuel m1
      let allOfChildren ← _dnf_allof_children fuel m1
      let side := eraseKey (eraseKey (eraseKey (eraseKey m1 "allOf") "anyOf") "oneOf") "not"
      let s ← merge ((JVal.obj [("anyOf", .arr [.obj side])]) :: allOfChildren)
      merge [.obj [("anyOf", .arr any_ofs)], .obj [("anyOf", .arr one_ofs)], s]
  | _ + 1, _ => raiseExc "AttributeError"

/-- The `anyOf` step of `_to_dnf`: flatten each child through `_to_dnf`
and concatenate the branch lists; a missing `anyOf` contributes a single
empty dict. -/
def _dnf_anyofs : Nat → Entries → Res (List JVal)
  | 0, _ => .error .fuel
  | fuel + 1, m1 =>
      match lookup m1 "anyOf" with
      | none => pure [JVal.obj []]
      | some (.arr l) => do
          let parts ← _to_dnf_anyofs fuel l
          pure parts.flatten
      | some _ => raiseExc "TypeError"

/-- The `oneOf` step of `_to_dnf`: the source comprehension
`invert(i) if i == idx else i` compares the schema `i` to the integer
`idx`, which is never true, and `invert` is the identity, so every
iteration merges the same unmodified child list; the result concatenates
one copy of the merged branches per child. An empty `oneOf` list never
enters the loop and contributes nothing; a missing `oneOf` contributes a
single empty dict. -/
def _dnf_oneofs : Nat → Entries → Res (List JVal)
  | 0, _ => .error .fuel
  | fuel + 1, m1 =>
      match lookup m1 "oneOf" with
      | none => pure [JVal.obj []]
      | some (.arr []) => pure ([] : List JVal)
      | some (.arr l) => do
          let subs ← _to_dnf_list fuel l
          let merged ← merge subs
          let mAnyOf ← getAnyOf merged
          pure (List.flatten (List.replicate l.length mAnyOf))
      | some _ => raiseExc "TypeError"

/-- The `allOf` step of `_to_dnf`: rewrite each `allOf` child. -/
def _dnf_allof_children : Nat → Entries → Res (List JVal)
  | 0, _ => .error .fuel
  | fuel + 1, m1 =>
      match lookup m1 "allOf" with
      | none => pure ([] : List JVal)
      | some (.arr l) => _to_dnf_list fuel l
      | some _ => raiseExc "TypeError"

/-- Map of `_to_dnf` over `anyOf` children, extracting each child's branch
list. -/
def _to_dnf_anyofs : Nat → List JVal → Res (List (List JVal))
  | 0, _ => .error .fuel
  | _ + 1, [] => pure []
  | fuel + 1, x :: xs => do
      let r ← _to_dnf fuel x
      let br ← getAnyOf r
      let rest ← _to_dnf_anyofs fuel xs
      pure (br :: rest)

/-- Map of `_to_dnf` over a list of sub-schemas. -/
def _to_dnf_list : Nat → List JVal → Res (List JVal)
  | 0, _ => .error .fuel
  | _ + 1, [] => pure []
  | fuel + 1, x :: xs => do
      let r ← _to_dnf fuel x
      let rest ← _to_dnf_list fuel xs
      pure (r :: rest)

end

example : _to_dnf 10 (.obj [("type", .str "integer"), ("minimum", .int 3)])
    = .ok (.obj [("anyOf", .arr [.obj [("type", .str "integer"), ("minimum", .int 3)]])]) := by
  decide

/-- The branch list `result['anyOf']` read back by `_normalize`. -/
def getBranchList (rm : Entries) : Res (List JVal) :=
  match lookup rm "anyOf" with
  | some (.arr l) => pure l
  | _ => raiseExc "KeyError"

/-- Schema of shape `anyOf: [$ref into $defs]` that `_normalize` returns
for a fingerprint found in (or stored into) the reference table. -/
def refAnyOf (fp : String) : JVal :=
  .obj [("anyOf", .arr [.obj [("$ref", .str ("#/$defs/" ++ fp))]])]

mutual

/-- Source `_normalize(schema, resolver, new_refs)`: canonicalize
booleans; fingerprint the node with SHA-1 over its `json.dumps` and
return a `$ref` into `$defs` when the fingerprint is already in the
table; otherwise inline references, rewrite to DNF, store the DNF under
the fingerprint when references were inlined, recursively normalize the
sub-schema positions of every branch (the in-place updates of the stored
table entry are modelled by re-storing the updated DNF), and return
either the `$ref` form (references inlined) or the DNF itself. The table
is threaded explicitly; its values are only ever read back through the
final `$defs`, membership tests use only the keys. -/
def _normalize : Nat → JVal → JVal → Entries → Res (JVal × Entries)
  | 0, _, _, _ => .error .fuel
  | _ + 1, _, .bool false, refs => pure (NORM_FALSE, refs)
  | _ + 1, _, .bool true, refs => pure (NORM_TRUE, refs)
  | fuel + 1, root, s, refs => do
      let fp := fingerprint s
      if containsKey refs fp then pure (refAnyOf fp, refs)
      else do
        let (s1, contains) ← _inline_refs fuel root s
        let result ← _to_dnf fuel s1
        let rm ← asObj result
        let branches ← getBranchList rm
        let refs1 := if contains then setKey refs fp result else refs
        let (branches2, refs2) ← _norm_branches fuel root branches refs1
        let result2 := JVal.obj (setKey rm "anyOf" (.arr branches2))
        let refs3 := if contains then setKey refs2 fp result2 else refs2
        pure (if contains then refAnyOf fp else result2, refs3)

/-- Per-branch iteration of `_normalize` over the DNF branches. -/
def _norm_branches : Nat → JVal → List JVal → Entries → Res (List JVal × Entries)
  | 0, _, _, _ => .error .fuel
  | _ + 1, _, [], refs => pure ([], refs)
  | fuel + 1, root, b :: bs, refs => do
      let (b2, refs2) ← _norm_branch fuel root b refs
      let (bs2, refs3) ← _norm_branches fuel root bs refs2
      pure (b2 :: bs2, refs3)

/-- Sub-schema positions of one branch: `additionalProperties`, `items`
and `additionalItems` values, then every value of `properties`, are
normalized in place. The recursive call for elements of `prefixItems`
omits the `new_refs` argument in the source (line 330), so a branch with
a nonempty `prefixItems` raises `TypeError` when the first element is
reached; an empty list never enters the loop body. -/
def _norm_branch : Nat → JVal → JVal → Entries → Res (JVal × Entries)
  | 0, _, _, _ => .error .fuel
  | fuel + 1, root, b, refs => do
      let bm ← asObj b
      let (bm1, refs1) ← _norm_kw fuel root bm "additionalProperties" refs
      let (bm2, refs2) ← _norm_kw fuel root bm1 "items" refs1
      let (bm3, refs3) ← _norm_kw fuel root bm2 "additionalItems" refs2
      let (bm4, refs4) ←
        match lookup bm3 "properties" with
        | none => pure (bm3, refs3)
        | some (.obj pm) => do
            let (pm2, r) ← _norm_props fuel root pm refs3
            pure (setKey bm3 "properties" (.obj pm2), r)
        | some _ => raiseExc "AttributeError"
      match lookup bm4 "prefixItems" with
      | none => pure (.obj bm4, refs4)
      | some (.arr []) => pure (.obj bm4, refs4)
      | some _ => raiseExc "TypeError"

/-- One keyword position (`additionalProperties`, `items`,
`additionalItems`) of a branch. -/
def _norm_kw : Nat → JVal → Entries → String → Entries → Res (Entries × Entries)
  | 0, _, _, _, _ => .error .fuel
  | fuel + 1, root, bm, kw, refs => do
      match lookup bm kw with
      | none => pure (bm, refs)
      | some v => do
          let (v2, refs2) ← _normalize fuel root v refs
          pure (setKey bm kw v2, refs2)

/-- Values of `properties` of a branch, normalized in order. -/
def _norm_props : Nat → JVal → Entries → Entries → Res (Entries × Entries)
  | 0, _, _, _ => .error .fuel
  | _ + 1, _, [], refs => pure ([], refs)
  | fuel + 1, root, (k, v) :: ps, refs => do
      let (v2, refs2) ← _normalize fuel root v refs
      let (ps2, refs3) ← _norm_props fuel root ps refs2
      pure ((k, v2) :: ps2, refs3)

end

/-- Source `normalize(schema)`: `False` maps to the dict `type: []`,
`True` to the empty dict (neither carries `$defs`); a dict is shallow
copied, stripped of `$schema` and `$defs`, normalized against a resolver
rooted at the ORIGINAL schema with an empty reference table, then
`$schema` is re-attached when present and the accumulated table is
attached under `$defs`. Anything else raises. (Namespaced: the bare name
`normalize` is already taken by Mathlib.) -/
def Fences.normalize : Nat → JVal → Res JVal
  | _, .bool false => pure (.obj [("type", .arr [])])
  | _, .bool true => pure (.obj [])
  | fuel, .obj m => do
      let m1 := eraseKey (eraseKey m "$schema") "$defs"
      let (r, refs) ← _normalize fuel (.obj m) (.obj m1) []
      let rm ← asObj r
      let rm1 :=
        match lookup m "$schema" with
        | some v => setKey rm "$schema" v
        | none => rm
      pure (.obj (setKey rm1 "$defs" (.obj refs)))
  | _, _ => raiseExc "Schema must be of type bool or dict, got something else"

/-- Keywords forbidden inside a normalized branch. -/
def forbiddenKeywords : List String :=
  ["anyOf", "allOf", "oneOf", "not", "if", "then", "else"]

mutual

/-- Source `_check_normalized(schema, resolver, checked_refs)`: the node
must be a dict whose keys besides `$schema` and `$defs` are exactly
`anyOf`, with a list value; every branch is then checked. The visited
set of `$ref` strings is threaded. -/
def _check_normalized : Nat → JVal → JVal → List String → Res (List String)
  | 0, _, _, _ => .error .fuel
  | fuel + 1, root, s, checked => do
      let m ← match s with
        | .obj m => pure m
        | _ => raiseExc "Must be a dict"
      let keys := (m.map Prod.fst).filter (fun k => !(k == "$schema") && !(k == "$defs"))
      if !(keys == ["anyOf"]) then raiseExc "Schema has one key not being anyOf"
      else do
        let any_of ←
          match lookup m "anyOf" with
          | some (.arr l) => pure l
          | some _ => raiseExc "anyOf must be a list"
          | none => raiseExc "KeyError"
        _check_branches fuel root m any_of checked

/-- Branch iteration of the checker. -/
def _check_branches : Nat → JVal → Entries → List JVal → List String → Res (List String)
  | 0, _, _, _, _ => .error .fuel
  | _ + 1, _, _, [], checked => pure checked
  | fuel + 1, root, m, b :: bs, checked => do
      let checked2 ← _check_branch fuel root m b checked
      _check_branches fuel root m bs checked2

/-- One branch of the checker: no forbidden keyword; a `$ref` branch is a
singleton whose target (resolved against the checked schema, at most once
per ref string) is itself checked; then the sub-schema traversal. The
three probes for `additionalProperties`, `items` and `additionalItems`
test the OUTER schema dict `m`, not the branch — the check of the source
(lines 404 to 406) reads `schema`, not `sub_schema` — so they never fire
on a top level of shape `anyOf`/`$defs`; `properties` values and
`prefixItems` elements of the branch are checked. -/
def _check_branch : Nat → JVal → Entries → JVal → List String → Res (List String)
  | 0, _, _, _, _ => .error .fuel
  | fuel + 1, root, m, b, checked => do
      let bm ← asObj b
      if forbiddenKeywords.any (fun k => containsKey bm k) then
        raiseExc "not allowed in normalized sub_schema"
      else do
        let checked1 ←
          if containsKey bm "$ref" then
            if bm.length != 1 then raiseExc "Sub-schema has other keys beside $ref"
            else do
              let refv ← match lookup bm "$ref" with
                | some (.str r) => pure r
                | _ => raiseExc "TypeError"
              if checked.contains refv then pure checked
              else do
                let segs ← pointerSegments refv
                let target ← pointerLookup root segs
                _check_normalized fuel root target (checked ++ [refv])
          else pure checked
        let checked2 ← _check_outer_kw fuel root m "additionalProperties" checked1
        let checked3 ← _check_outer_kw fuel root m "items" checked2
        let checked4 ← _check_outer_kw fuel root m "additionalItems" checked3
        let checked5 ←
          match lookup bm "properties" with
          | none => pure checked4
          | some (.obj pm) => _check_vals fuel root (pm.map Prod.snd) checked4
          | some _ => raiseExc "AttributeError"
        match lookup bm "prefixItems" with
        | none => pure checked5
        | some (.arr l) => _check_vals fuel root l checked5
        | some _ => raiseExc "TypeError"

/-- The buggy keyword probe of the checker (tests the outer dict). -/
def _check_outer_kw : Nat → JVal → Entries → String → List String → Res (List String)
  | 0, _, _, _, _ => .error .fuel
  | fuel + 1, root, m, kw, checked =>
      match lookup m kw with
      | none => pure checked
      | some v => _check_normalized fuel root v checked

/-- Checker iteration over a list of sub-schema values. -/
def _check_vals : Nat → JVal → List JVal → List String → Res (List String)
  | 0, _, _, _ => .error .fuel
  | _ + 1, _, [], checked => pure checked
  | fuel + 1, root, v :: vs, checked => do
      let checked2 ← _check_normalized fuel root v checked
      _check_vals fuel root vs checked2

end

/-- Source `check_normalized(schema)`: run the recursive checker with the
schema itself as resolver root and an empty visited set. -/
def check_normalized (fuel : Nat) (v : JVal) : Res Unit :=
  (_check_normalized fuel v v []).map (fun _ => ())

example : Fences.normalize 10 (.obj [("type", .str "integer"), ("minimum", .int 3)])
    = .ok (.obj [("anyOf", .arr [.obj [("type", .str "integer"), ("minimum", .int 3)]]),
                 ("$defs", .obj [])]) := by decide

example : check_normalized 10 (.obj [("anyOf", .arr [.obj [("type", .str "integer")]]),
    ("$defs", .obj [])]) = .ok () := by decide

example : check_normalized 10 (.obj []) = .error (.exc "Schema has one key not being anyOf") := by
  decide

/-!
Small proof toolkit: destructuring `Except` binds and association-list
lemmas used throughout the claim proofs.
-/

theorem bind_ok_iff {α β : Type} {e : Res α} {f : α → Res β} {b : β} :
    (e >>= f) = .ok b ↔ ∃ a, e = .ok a ∧ f a = .ok b := by
  cases e <;> simp [Bind.bind, Except.bind]

theorem pure_ok {α : Type} {a b : α} : (pure a : Res α) = .ok b ↔ a = b :=
  ⟨fun h => Except.ok.inj h, fun h => h ▸ rfl⟩

theorem containsKey_cons {p : String × JVal} {rest : Entries} {k : String} :
    containsKey (p :: rest) k = (p.1 == k || containsKey rest k) := by
  simp [containsKey]

theorem lookup_cons {p : String × JVal} {rest : Entries} {k : String} :
    lookup (p :: rest) k = if p.1 == k then some p.2 else lookup rest k := by
  by_cases h : p.1 = k
  · simp [lookup, List.find?_cons_of_pos, h]
  · have hb : (p.1 == k) = false := by simpa using h
    simp [lookup, List.find?_cons_of_neg, hb, h]

theorem lookup_of_containsKey {m : Entries} {k : String} :
    containsKey m k = true → ∃ v, lookup m k = some v := by
  induction m with
  | nil => intro h; simp [containsKey] at h
  | cons p rest ih =>
      intro h
      by_cases hk : p.1 = k
      · exact ⟨p.2, by simp [lookup_cons, hk]⟩
      · have hb : (p.1 == k) = false := by simpa using hk
        rw [containsKey_cons, hb, Bool.false_or] at h
        rcases ih h with ⟨v, hv⟩
        exact ⟨v, by simp [lookup_cons, hb, hv]⟩

theorem containsKey_of_lookup {m : Entries} {k : String} {v : JVal} :
    lookup m k = some v → containsKey m k = true := by
  induction m with
  | nil => intro h; simp [lookup] at h
  | cons p rest ih =>
      intro h
      by_cases hk : p.1 = k
      · simp [containsKey_cons, hk]
      · have hb : (p.1 == k) = false := by simpa using hk
        rw [lookup_cons, hb] at h
        simp only [if_false, Bool.false_eq_true] at h
        rw [containsKey_cons, hb, Bool.false_or]
        exact ih h

theorem lookup_none_of_not_containsKey {m : Entries} {k : String} :
    containsKey m k = false → lookup m k = none := by
  intro h
  cases hl : lookup m k with
  | none => rfl
  | some v => rw [containsKey_of_lookup hl] at h; cases h

/-!
Claim C3. The source `normalize` returns `type: []` for `False` and the
empty dict for `True` BEFORE reaching the code that attaches `$defs`
(lines 339 to 344), so neither boolean output carries a `$defs` key; the
claimed outputs `$defs: empty` and `type: [], $defs: empty` are wrong.
-/

/-- Claim C3, counterexample: `normalize(true)` evaluates to the empty
dict, which differs from the claimed `$defs: empty dict`; likewise
`normalize(false)` evaluates to `type: []` without `$defs`. -/
theorem C3_counterexample :
    Fences.normalize 10 (.bool true) = .ok (.obj []) ∧
    JVal.obj [] ≠ .obj [("$defs", .obj [])] ∧
    Fences.normalize 10 (.bool false) = .ok (.obj [("type", .arr [])]) ∧
    JVal.obj [("type", .arr [])] ≠ .obj [("type", .arr []), ("$defs", .obj [])] := by
  refine ⟨rfl, by decide, rfl, by decide⟩

/-- Claim C3 as amended: for every fuel, `normalize` applied to the
boolean `true` returns exactly the empty dict, and applied to the boolean
`false` returns exactly `type: []`; no `$defs` key is attached to either
boolean output. -/
theorem C3_normalize_boolean_inputs :
    (∀ fuel, Fences.normalize fuel (.bool true) = .ok (.obj [])) ∧
    (∀ fuel, Fences.normalize fuel (.bool false) = .ok (.obj [("type", .arr [])])) :=
  ⟨fun _ => rfl, fun _ => rfl⟩

/-!
Claim C5. `merge_simple` SKIPS an operand whose `anyOf` list is empty
(source line 160), so the empty branch list of an input `anyOf: []` does
not survive into the output: the other operands of the final `_to_dnf`
merge contribute one empty branch.
-/

/-- Claim C5, counterexample: normalizing the keyword-map `anyOf: []`
yields a single EMPTY branch, not an empty branch list. -/
theorem C5_counterexample :
    Fences.normalize 12 (.obj [("anyOf", .arr [])])
      = .ok (.obj [("anyOf", .arr [.obj []]), ("$defs", .obj [])]) ∧
    JVal.arr [.obj []] ≠ .arr [] := by
  exact ⟨by decide, by decide⟩

/-- Claim C5 as amended: the empty `anyOf` branch list of the input does
NOT survive normalization; `merge_simple` skips operands with empty
branch lists, so for any sufficient fuel the output's top-level `anyOf`
is a single empty branch (and `$defs` is empty). -/
theorem C5_empty_anyOf_collapses (fuel : Nat) :
    Fences.normalize (fuel + 6) (.obj [("anyOf", .arr [])])
      = .ok (.obj [("anyOf", .arr [.obj []]), ("$defs", .obj [])]) := rfl

/-!
Claim C6. The conditional simplifier emits the ELSE branch
`allOf [side, not IF, ELSE]` first (source lines 196 to 201) and the THEN
branch `allOf [side, IF, THEN]` second (lines 202 to 207); the claim
states the two branches in the opposite order.
-/

/-- Claim C6, counterexample: on `x: 7, if: A, then: B, else: C` the
simplifier returns the branch pair with the `not IF / ELSE` conjunction
FIRST, which differs from the claimed order (THEN branch first). -/
theorem C6_counterexample :
    _simplify_if_then_else
        [("x", .int 7), ("if", .obj [("type", .str "string")]),
         ("then", .obj [("minLength", .int 1)]), ("else", .obj [("minimum", .int 0)])]
      = .obj [("anyOf", .arr
          [allOf3 (.obj [("x", .int 7)])
             (.obj [("not", .obj [("type", .str "string")])]) (.obj [("minimum", .int 0)]),
           allOf3 (.obj [("x", .int 7)])
             (.obj [("type", .str "string")]) (.obj [("minLength", .int 1)])])] ∧
    JVal.arr
        [allOf3 (.obj [("x", .int 7)])
           (.obj [("not", .obj [("type", .str "string")])]) (.obj [("minimum", .int 0)]),
         allOf3 (.obj [("x", .int 7)])
           (.obj [("type", .str "string")]) (.obj [("minLength", .int 1)])]
      ≠ .arr
        [allOf3 (.obj [("x", .int 7)])
           (.obj [("type", .str "string")]) (.obj [("minLength", .int 1)]),
         allOf3 (.obj [("x", .int 7)])
           (.obj [("not", .obj [("type", .str "string")])]) (.obj [("minimum", .int 0)])] := by
  exact ⟨by decide, by decide⟩

/-- Claim C6 as amended: for every keyword-map with `if: A`, `then: B`,
`else: C` all present (values not null) plus arbitrary side keywords, the
conditional simplifier returns an `anyOf` of exactly two branches: the
FIRST an `allOf` of the side schema, `not: A`, and `C`, and the SECOND an
`allOf` of the side schema, `A`, and `B` — the opposite of the claimed
order. -/
theorem C6_simplify_if_then_else (m : Entries) (A B C : JVal)
    (hif : lookup m "if" = some A) (hth : lookup m "then" = some B)
    (hel : lookup m "else" = some C)
    (hA : A ≠ .null) (hB : B ≠ .null) (hC : C ≠ .null) :
    _simplify_if_then_else m =
      .obj [("anyOf", .arr
        [allOf3 (.obj (eraseKey (eraseKey (eraseKey m "if") "then") "else"))
           (.obj [("not", A)]) C,
         allOf3 (.obj (eraseKey (eraseKey (eraseKey m "if") "then") "else")) A B])] := by
  have hc : containsKey m "if" = true := containsKey_of_lookup hif
  have hpi : popIf m = some A := by
    unfold popIf; rw [hif]; cases A
    · exact absurd rfl hA
    all_goals rfl
  have hpt : popThenElse m "then" = some B := by
    unfold popThenElse; rw [hth]; cases B
    · exact absurd rfl hB
    all_goals rfl
  have hpe : popThenElse m "else" = some C := by
    unfold popThenElse; rw [hel]; cases C
    · exact absurd rfl hC
    all_goals rfl
  simp [_simplify_if_then_else, hc, hpi, hpt, hpe]

/-- Claim C6, witness: the amended branch-order theorem applied at a
concrete conditional schema. -/
theorem C6_witness :
    _simplify_if_then_else
        [("deprecated", .bool true), ("if", .obj [("minimum", .int 1)]),
         ("then", .obj [("maximum", .int 9)]), ("else", .obj [("pattern", .str "a")])]
      = .obj [("anyOf", .arr
        [allOf3 (.obj [("deprecated", .bool true)])
           (.obj [("not", .obj [("minimum", .int 1)])]) (.obj [("pattern", .str "a")]),
         allOf3 (.obj [("deprecated", .bool true)])
           (.obj [("minimum", .int 1)]) (.obj [("maximum", .int 9)])])] := by
  exact C6_simplify_if_then_else _ _ _ _ (by decide) (by decide) (by decide)
    (by decide) (by decide) (by decide)

/-!
Claim C2. The fingerprint table in `_normalize` does break cycles that
pass through the deferred sub-schema positions (`properties`, `items`,
and so on), but `_inline_refs` itself recurses into `anyOf`, `allOf`,
`oneOf` and `not` elements of the INLINED target with no fingerprint
check at all, so a `$ref` cycle through a logical-keyword position makes
`_inline_refs` recurse forever: `normalize` on the self-referential
schema `$ref: "#"` never returns (the model exhausts every fuel).
-/

/-- The self-referential schema `$ref: "#"`: inlining it produces
`allOf [empty, root]` and recursing into that `allOf` meets the same
`$ref` again. -/
def cyclicSchema : JVal := .obj [("$ref", .str "#")]

/-- Unfolding step of the divergence: five units of fuel take the inliner
from the cyclic schema back to itself. -/
theorem inline_cyclic_step (g : Nat)
    (h : _inline_refs (g + 1) cyclicSchema cyclicSchema = .error .fuel) :
    _inline_refs (g + 5) cyclicSchema cyclicSchema = .error .fuel := by
  rw [show (g + 5 : Nat) = Nat.succ (g + 4) from rfl]
  rw [_inline_refs.eq_def]
  simp [cyclicSchema, _inline_ref_top, containsKey, lookup, eraseKey, setKey, lookupD,
    pointerSegments, pointerLookup, List.any, List.find?, List.filter, List.foldlM,
    Bind.bind, Except.bind, pure, Except.pure, List.map]
  rw [show (g + 4 : Nat) = Nat.succ (g + 3) from rfl]
  simp only [_inline_kw.eq_def]
  simp [containsKey, lookup, eraseKey, setKey, List.any, List.find?, List.filter,
    Bind.bind, Except.bind, pure, Except.pure, List.map]
  rw [show (g + 3 : Nat) = Nat.succ (g + 2) from rfl]
  rw [_inline_list.eq_def]
  simp [Bind.bind, Except.bind, pure, Except.pure]
  rw [show (g + 2 : Nat) = Nat.succ (g + 1) from rfl]
  rw [_inline_refs.eq_def]
  simp [_inline_ref_top, containsKey, lookup, eraseKey, setKey, List.any, List.find?,
    List.filter, Bind.bind, Except.bind, pure, Except.pure, List.map]
  rw [show (g + 1 : Nat) = Nat.succ g from rfl] at h ⊢
  simp only [_inline_kw.eq_def]
  simp [containsKey, lookup, eraseKey, setKey, List.any, List.find?, List.filter,
    Bind.bind, Except.bind, pure, Except.pure, List.map]
  rw [show (g + 1 + 1 : Nat) = Nat.succ (g + 1) from rfl]
  rw [_inline_list.eq_def]
  simp [Bind.bind, Except.bind, pure, Except.pure]
  simp only [cyclicSchema] at h
  rw [h]

/-- The inliner exhausts every amount of fuel on the cyclic schema. -/
theorem inline_cyclic_diverges :
    ∀ n, _inline_refs n cyclicSchema cyclicSchema = .error .fuel := by
  intro n
  induction n using Nat.strong_induction_on with
  | _ n ih =>
    match n, ih with
    | 0, _ => decide
    | 1, _ => decide
    | 2, _ => decide
    | 3, _ => decide
    | 4, _ => decide
    | (m + 5), ih => exact inline_cyclic_step m (ih (m + 1) (by omega))

/-- `normalize` exhausts every fuel bound on the cyclic keyword-map
`$ref: "#"`: `_inline_refs` re-inlines the self-reference forever before
the fingerprint table is ever consulted again. -/
theorem normalize_cyclic_diverges : ∀ n, Fences.normalize n cyclicSchema = .error .fuel := by
  intro n
  match n with
  | 0 => decide
  | (f + 1) =>
    have h := inline_cyclic_diverges f
    rw [show (f + 1 : Nat) = Nat.succ f from rfl]
    rw [Fences.normalize.eq_def]
    simp only [cyclicSchema]
    rw [_normalize.eq_def]
    simp [containsKey, eraseKey, List.any, List.filter, Bind.bind, Except.bind,
      pure, Except.pure]
    simp only [cyclicSchema] at h
    rw [h]

/-- Claim C2, counterexample: `normalize` does NOT terminate on the
cyclic keyword-map `$ref: "#"`: the run at fuel 1000 exhausts its fuel,
and so does the run at EVERY other fuel bound, because `_inline_refs`
re-inlines the self-reference forever before the fingerprint table is
ever consulted again. -/
theorem C2_counterexample :
    Fences.normalize 1000 cyclicSchema = .error .fuel ∧
    (∀ n : Nat, Fences.normalize n cyclicSchema = .error .fuel) :=
  ⟨normalize_cyclic_diverges 1000, normalize_cyclic_diverges⟩

/-- Claim C2 as amended: the fingerprint table does short-circuit the
deferred recursion — whenever `_normalize` reaches a non-boolean schema
whose fingerprint is already a key of `new_refs`, it immediately returns
`anyOf: [$ref: "#/$defs/<fingerprint>"]` with the table unchanged,
instead of recursing into the schema again. (Termination for arbitrary
cyclic schemas, as the claim states it, is refuted by
the divergence of `_inline_refs` on a `$ref` cycle through a
logical-keyword position.) -/
theorem C2_fingerprint_short_circuit (fuel : Nat) (root : JVal) (m : Entries)
    (refs : Entries) (h : containsKey refs (fingerprint (.obj m)) = true) :
    _normalize (fuel + 1) root (.obj m) refs
      = .ok (refAnyOf (fingerprint (.obj m)), refs) := by
  rw [show (fuel + 1 : Nat) = Nat.succ fuel from rfl]
  rw [_normalize.eq_def]
  simp [h, Bind.bind, Except.bind, pure, Except.pure]

/-- Claim C2, witness: the short-circuit theorem applied at a concrete
schema whose fingerprint was put in the table. -/
theorem C2_witness :
    _normalize 1 NORM_TRUE (.obj [("minimum", .int 3)])
        [(fingerprint (.obj [("minimum", .int 3)]), NORM_TRUE)]
      = .ok (refAnyOf (fingerprint (.obj [("minimum", .int 3)])),
             [(fingerprint (.obj [("minimum", .int 3)]), NORM_TRUE)]) :=
  C2_fingerprint_short_circuit 0 NORM_TRUE _ _ (by simp [containsKey])

/-!
Claim C9. `_normalize` fingerprints with `json.dumps(schema)` and NO
`sort_keys=True` (source line 305), so the hashed encoding preserves the
key insertion order; two inputs that are equal as JSON values but
enumerate keys differently hash differently, and the difference is
observable in the `$defs` keys and `$ref` strings of the output. The
spec itself demands the opposite ("Canonicalization must sort object
keys"), so the code contradicts its stated intent.
-/

mutual

/-- Equality of two values AS JSON VALUES (Python `==`): object
comparison ignores key order. Assumes unique keys, as Python dicts
guarantee. This definition is spec-side vocabulary for stating claim C9
and C7; the source never compares schemas this way. -/
def jvalEquiv : JVal → JVal → Bool
  | .null, .null => true
  | .bool a, .bool b => a == b
  | .int a, .int b => a == b
  | .str a, .str b => a == b
  | .arr a, .arr b => jvalEquivList a b
  | .obj a, .obj b => a.length == b.length && jvalEquivEntries a b
  | _, _ => false

/-- Pointwise `jvalEquiv` on lists (JSON arrays stay ordered). -/
def jvalEquivList : List JVal → List JVal → Bool
  | [], [] => true
  | x :: xs, y :: ys => jvalEquiv x y && jvalEquivList xs ys
  | _, _ => false

/-- Every entry of the first object matches the second object under its
key, wherever that key sits. -/
def jvalEquivEntries : Entries → Entries → Bool
  | [], _ => true
  | (k, v) :: rest, b =>
      (match lookup b k with
       | some w => jvalEquiv v w
       | none => false) && jvalEquivEntries rest b

end

/-- First C9 input: keys in the order `a`, `anyOf`. The `anyOf: [true]`
makes the inliner report a reference, so the fingerprint lands in the
output. -/
def C9_A : JVal := .obj [("a", .int 1), ("anyOf", .arr [.bool true])]

/-- Second C9 input: the same two entries, enumerated the other way. -/
def C9_B : JVal := .obj [("anyOf", .arr [.bool true]), ("a", .int 1)]

/-- Keys of the `$defs` table of a normalization result. -/
def defsKeys (r : Res JVal) : Option (List String) :=
  match r with
  | .ok (.obj m) =>
      match lookup m "$defs" with
      | some (.obj d) => some (d.map Prod.fst)
      | _ => none
  | _ => none

set_option maxHeartbeats 4000000 in
/-- Claim C9: the two key-orderings of one JSON value hash to different
SHA-1 fingerprints (json.dumps is insertion-ordered, not key-sorted), and
the two normalization runs emit different `$defs` keys and `$ref`
strings. -/
theorem C9_key_order_changes_fingerprint :
    jvalEquiv C9_A C9_B = true ∧ jvalEquiv C9_B C9_A = true ∧
    fingerprint C9_A ≠ fingerprint C9_B ∧
    defsKeys (Fences.normalize 12 C9_A) = some [fingerprint C9_A] ∧
    defsKeys (Fences.normalize 12 C9_B) = some [fingerprint C9_B] := by
  refine ⟨by decide, by decide, by decide, by decide, by decide⟩

/-!
Claim C1. `check_normalized(normalize(S))` does NOT succeed for every
schema on which `normalize` returns: the boolean inputs return `type: []`
and the empty dict, which fail the checker's top-level shape gate, and a
`$ref` under a `then` (or `if`/`else`) value is never inlined —
`_inline_refs` does not traverse those keywords — so it survives into an
output branch beside other keys, which the checker rejects. What does
hold is the top-level shape: for every keyword-map input the output's
keys besides `$schema` and `$defs` are exactly `anyOf` with a list value.
-/

/-- Result shape of `merge_simple`: a successful merge is always a dict
with the single key `anyOf` holding a list. -/
theorem merge_simple_shape {schemas : List JVal} {v : JVal}
    (h : merge_simple schemas = .ok v) : ∃ bs, v = .obj [("anyOf", .arr bs)] := by
  unfold merge_simple at h
  split at h
  · cases h
  · rcases bind_ok_iff.mp h with ⟨anyOfs, h1, h2⟩
    rcases bind_ok_iff.mp h2 with ⟨results, h3, h4⟩
    exact ⟨results.map .obj, (pure_ok.mp h4).symm⟩

/-- Result shape of `merge`. -/
theorem merge_shape {schemas : List JVal} {v : JVal}
    (h : merge schemas = .ok v) : ∃ bs, v = .obj [("anyOf", .arr bs)] :=
  merge_simple_shape h

/-- Result shape of `_to_dnf`: every successful rewrite is a dict with
the single key `anyOf` holding a list. -/
theorem _to_dnf_shape {fuel : Nat} {s v : JVal}
    (h : _to_dnf fuel s = .ok v) : ∃ bs, v = .obj [("anyOf", .arr bs)] := by
  match fuel, s with
  | 0, _ => cases h
  | _ + 1, .bool false => exact ⟨_, (Except.ok.inj h).symm⟩
  | _ + 1, .bool true => exact ⟨_, (Except.ok.inj h).symm⟩
  | fuel + 1, .obj m =>
      rw [show (fuel + 1 : Nat) = Nat.succ fuel from rfl, _to_dnf.eq_def] at h
      simp only [Bind.bind] at h
      rcases bind_ok_iff.mp h with ⟨m1, h1, h2⟩
      rcases bind_ok_iff.mp h2 with ⟨any_ofs, h3, h4⟩
      rcases bind_ok_iff.mp h4 with ⟨one_ofs, h5, h6⟩
      rcases bind_ok_iff.mp h6 with ⟨allOfChildren, h7, h8⟩
      rcases bind_ok_iff.mp h8 with ⟨s2, h9, h10⟩
      exact merge_shape h10
  | _ + 1, .null => cases h
  | _ + 1, .int n => cases h
  | _ + 1, .str s => cases h
  | _ + 1, .arr l => cases h

/-- Result shape of `_normalize`: every successful normalization returns
a dict with the single key `anyOf` holding a list. -/
theorem _normalize_shape {fuel : Nat} {root s : JVal} {refs : Entries}
    {r : JVal} {refs' : Entries}
    (h : _normalize fuel root s refs = .ok (r, refs')) :
    ∃ l, r = .obj [("anyOf", .arr l)] := by
  rw [_normalize.eq_def] at h
  split at h
  · cases h
  · exact ⟨_, (congrArg Prod.fst (pure_ok.mp h)).symm⟩
  · exact ⟨_, (congrArg Prod.fst (pure_ok.mp h)).symm⟩
  · dsimp only at h
    split at h
    · exact ⟨_, (congrArg Prod.fst (pure_ok.mp h)).symm⟩
    · rcases bind_ok_iff.mp h with ⟨⟨s1, contains⟩, h1, h2⟩
      rcases bind_ok_iff.mp h2 with ⟨result, h3, h4⟩
      rcases bind_ok_iff.mp h4 with ⟨rm, h5, h6⟩
      rcases bind_ok_iff.mp h6 with ⟨branches, h7, h8⟩
      rcases bind_ok_iff.mp h8 with ⟨⟨branches2, refs2⟩, h9, h10⟩
      have h11 := pure_ok.mp h10
      rcases _to_dnf_shape h3 with ⟨bs, rfl⟩
      have hrm : rm = [("anyOf", .arr bs)] := by
        have h5a := h5
        simp [asObj, pure, Except.pure] at h5a
        exact h5a.symm
      subst hrm
      have hr : r = (if contains = true then refAnyOf (fingerprint s)
          else JVal.obj (setKey [("anyOf", .arr bs)] "anyOf" (.arr branches2))) := by
        have := congrArg Prod.fst h11
        simpa using this.symm
      cases contains with
      | true => exact ⟨_, by simp at hr; exact hr⟩
      | false =>
          refine ⟨branches2, ?_⟩
          rw [hr]
          simp [setKey, containsKey]

/-- Keyword-map whose `then` value carries a `$ref`: `_inline_refs` never
traverses `then`, so the reference survives into a DNF branch beside
other keys. -/
def C1_S : JVal := .obj [("if", .obj [("type", .str "string")]),
  ("then", .obj [("$ref", .str "#/x")]), ("x", .obj [("type", .str "integer")])]

/-- Claim C1, counterexample: `normalize` returns without fault on the
boolean `true` and on the keyword-map `C1_S`, yet `check_normalized`
rejects both outputs — the boolean output is the empty dict (no `anyOf`
key), and the `C1_S` output holds a branch with `$ref` beside other
keys. -/
theorem C1_counterexample :
    (Fences.normalize 5 (.bool true) = .ok (.obj []) ∧
     check_normalized 5 (.obj [])
       = .error (.exc "Schema has one key not being anyOf")) ∧
    (Fences.normalize 20 C1_S = .ok (.obj
        [("anyOf", .arr
            [.obj [("x", .obj [("type", .str "integer")])],
             .obj [("x", .obj [("type", .str "integer")]), ("type", .str "string"),
                   ("$ref", .str "#/x")]]),
         ("$defs", .obj [])]) ∧
     check_normalized 20 (.obj
        [("anyOf", .arr
            [.obj [("x", .obj [("type", .str "integer")])],
             .obj [("x", .obj [("type", .str "integer")]), ("type", .str "string"),
                   ("$ref", .str "#/x")]]),
         ("$defs", .obj [])])
       = .error (.exc "Sub-schema has other keys beside $ref")) := by
  exact ⟨⟨by decide, by decide⟩, ⟨by decide, by decide⟩⟩

/-- Claim C1 as amended: for every keyword-map input on which `normalize`
returns without fault, the output passes the checker's TOP-LEVEL shape
gate — its keys besides `$schema` and `$defs` are exactly `anyOf`, whose
value is a list. The full `check_normalized` does not always succeed:
boolean inputs produce the empty dict and `type: []`, which fail this
gate, and a `$ref` under an `if`/`then`/`else` value survives into a
branch beside other keys, which the branch check rejects. -/
theorem C1_top_level_shape (fuel : Nat) (m : Entries) (out : JVal)
    (h : Fences.normalize fuel (.obj m) = .ok out) :
    ∃ me, out = .obj me ∧
      ((me.map Prod.fst).filter (fun k => !(k == "$schema") && !(k == "$defs")))
        = ["anyOf"] ∧
      ∃ l, lookup me "anyOf" = some (.arr l) := by
  rw [Fences.normalize.eq_def] at h
  dsimp only at h
  rcases bind_ok_iff.mp h with ⟨⟨r, refs⟩, h1, h2⟩
  rcases bind_ok_iff.mp h2 with ⟨rm, h3, h4⟩
  rcases _normalize_shape h1 with ⟨l, rfl⟩
  have hrm : rm = [("anyOf", .arr l)] := by
    simp [asObj, pure, Except.pure] at h3
    exact h3.symm
  subst hrm
  have hout := pure_ok.mp h4
  cases hsch : lookup m "$schema" with
  | none =>
      rw [hsch] at hout
      refine ⟨_, hout.symm, ?_, ?_⟩
      · simp [setKey, containsKey]
      · exact ⟨l, by simp [setKey, containsKey, lookup_cons]⟩
  | some v =>
      rw [hsch] at hout
      refine ⟨_, hout.symm, ?_, ?_⟩
      · simp [setKey, containsKey]
      · exact ⟨l, by simp [setKey, containsKey, lookup_cons]⟩

/-- Claim C1, witness: the shape-gate theorem applied to a concrete
normalization run. -/
theorem C1_witness :
    ∃ me, JVal.obj [("anyOf", .arr [.obj [("minimum", .int 3)]]), ("$defs", .obj [])]
        = .obj me ∧
      ((me.map Prod.fst).filter (fun k => !(k == "$schema") && !(k == "$defs")))
        = ["anyOf"] ∧
      ∃ l, lookup me "anyOf" = some (.arr l) :=
  C1_top_level_shape 10 [("minimum", .int 3)] _ (by decide)

/-!
Claim C10. `_inline_refs` canonicalizes the boolean `true` to
`(NORM_TRUE, True)` — the flag that normally means "a reference was
inlined" — while `false` maps to `(NORM_FALSE, False)`. Consequently a
schema with no `$ref` at all, but with `true` somewhere in the positions
the inliner traverses (elements of `anyOf`/`allOf`/`oneOf` lists and
values of `not`, recursively through those same positions), is treated as
if it contained references: `_normalize` stores its DNF under the
fingerprint and returns the `$ref` wrapper instead of the DNF.
-/

mutual

/-- No `$ref` key anywhere in the value. -/
def noRef : JVal → Bool
  | .obj m => noRefEntries m
  | .arr l => noRefList l
  | _ => true

/-- `noRef` over list elements. -/
def noRefList : List JVal → Bool
  | [] => true
  | x :: xs => noRef x && noRefList xs

/-- `noRef` over dict entries: no key is `$ref`, recursively. -/
def noRefEntries : Entries → Bool
  | [] => true
  | (k, v) :: rest => !(k == "$ref") && noRef v && noRefEntries rest

end

mutual

/-- Walk of the entries with Python dict lookup semantics: a key already
seen earlier (`seen`) is shadowed and skipped; the value of `anyOf`,
`allOf`, `oneOf` (as a list) or `not` is inspected for the boolean
`true`. -/
def entriesHasTrue : List String → Entries → Bool
  | _, [] => false
  | seen, (k, v) :: rest =>
      if seen.contains k then entriesHasTrue seen rest
      else
        (if k == "anyOf" || k == "allOf" || k == "oneOf" then arrHasTrue v
         else if k == "not" then elemHasTrue v
         else false)
        || entriesHasTrue (k :: seen) rest

/-- `listHasTrue` behind a list value. -/
def arrHasTrue : JVal → Bool
  | .arr l => listHasTrue l
  | _ => false

/-- Some element is `true` or contains one. -/
def listHasTrue : List JVal → Bool
  | [] => false
  | x :: xs => elemHasTrue x || listHasTrue xs

/-- One traversed element: the boolean `true` itself, or a keyword-map
containing it at a traversed position. -/
def elemHasTrue : JVal → Bool
  | .bool b => b
  | .obj m => entriesHasTrue [] m
  | _ => false

end

/-- The boolean `true` occurs at a position that `_inline_refs`
traverses: an element of an `anyOf`, `allOf` or `oneOf` list, or the
value of `not`, recursively through those same positions. -/
def hasTrueLogical : JVal → Bool
  | .obj m => entriesHasTrue [] m
  | _ => false

/-- Flag contribution of one logical keyword, in lookup vocabulary
(`arrHasTrue` of a missing or non-list value is false). -/
def kwFlagLookup (m : Entries) (kw : String) : Bool :=
  arrHasTrue (lookupD m kw .null)

/-- Flag contribution of the `not` value, in lookup vocabulary. -/
def notFlagLookup (m : Entries) : Bool :=
  elemHasTrue (lookupD m "not" (.bool false))

theorem lookupD_cons {p : String × JVal} {rest : Entries} {k : String} {d : JVal} :
    lookupD (p :: rest) k d = if p.1 == k then p.2 else lookupD rest k d := by
  by_cases h : p.1 = k <;> simp [lookupD, lookup_cons, h]

theorem lookup_map_replace {m : Entries} {k k' : String} {v : JVal} (h : ¬(k = k')) :
    lookup (m.map (fun p => if p.1 == k then (k, v) else p)) k' = lookup m k' := by
  induction m with
  | nil => rfl
  | cons p rest ih =>
      by_cases hp : p.1 = k
      · have hb : (p.1 == k) = true := by simpa using hp
        have h2 : ¬(p.1 = k') := fun he => h (hp ▸ he)
        simp only [List.map, hb, if_true, lookup_cons]
        simp [h, h2]
        simpa using ih
      · have hb : (p.1 == k) = false := by simpa using hp
        simp only [List.map, hb, Bool.false_eq_true, if_false, lookup_cons]
        by_cases hp2 : p.1 = k' <;> simp [hp2] <;> simpa using ih

theorem lookup_append_single_ne {m : Entries} {k k' : String} {v : JVal} (h : ¬(k = k')) :
    lookup (m ++ [(k, v)]) k' = lookup m k' := by
  induction m with
  | nil => simp [lookup, lookup_cons, h]
  | cons p rest ih => by_cases hp : p.1 = k' <;> simp [lookup_cons, hp, ih]

theorem lookup_setKey_ne {m : Entries} {k k' : String} {v : JVal} (h : ¬(k = k')) :
    lookup (setKey m k v) k' = lookup m k' := by
  unfold setKey
  split
  · exact lookup_map_replace h
  · exact lookup_append_single_ne h

theorem lookupD_setKey_ne {m : Entries} {k k' : String} {v d : JVal} (h : ¬(k = k')) :
    lookupD (setKey m k v) k' d = lookupD m k' d := by
  simp [lookupD, lookup_setKey_ne h]

theorem noRefEntries_lookup {m : Entries} {k : String} {v : JVal}
    (hm : noRefEntries m = true) (h : lookup m k = some v) : noRef v = true := by
  induction m with
  | nil => simp [lookup] at h
  | cons p rest ih =>
      obtain ⟨k1, v1⟩ := p
      simp [noRefEntries] at hm
      by_cases hp : k1 = k
      · rw [lookup_cons] at h
        simp [hp] at h
        exact h ▸ hm.1.2
      · rw [lookup_cons] at h
        simp [hp] at h
        exact ih hm.2 h

theorem noRefEntries_no_ref {m : Entries} (hm : noRefEntries m = true) :
    containsKey m "$ref" = false := by
  induction m with
  | nil => simp [containsKey]
  | cons p rest ih =>
      obtain ⟨k1, v1⟩ := p
      simp [noRefEntries] at hm
      simp [containsKey_cons, ih hm.2]
      intro hk
      exact absurd hk hm.1.1

/-- Bridge between the shadow-aware entry walk and lookup vocabulary: the
walk sees exactly the first occurrence of each of the four logical
keywords not yet shadowed by `seen`. -/
theorem entriesHasTrue_lookup (m : Entries) : ∀ (seen : List String),
    entriesHasTrue seen m =
      ((!seen.contains "anyOf" && kwFlagLookup m "anyOf") ||
       (!seen.contains "allOf" && kwFlagLookup m "allOf") ||
       (!seen.contains "oneOf" && kwFlagLookup m "oneOf") ||
       (!seen.contains "not" && notFlagLookup m)) := by
  induction m with
  | nil =>
      intro seen
      simp [entriesHasTrue, kwFlagLookup, notFlagLookup, lookupD, lookup, arrHasTrue,
        elemHasTrue]
  | cons p rest ih =>
      intro seen
      obtain ⟨k, v⟩ := p
      rw [entriesHasTrue]
      by_cases h1 : seen.contains k
      · have h1m : k ∈ seen := by simpa using h1
        rw [if_pos h1, ih seen]
        by_cases ha : k = "anyOf"
        · subst ha
          simp [kwFlagLookup, notFlagLookup, lookupD_cons, h1m]
        · by_cases hb : k = "allOf"
          · subst hb
            simp [kwFlagLookup, notFlagLookup, lookupD_cons, h1m]
          · by_cases hc : k = "oneOf"
            · subst hc
              simp [kwFlagLookup, notFlagLookup, lookupD_cons, h1m]
            · by_cases hd : k = "not"
              · subst hd
                simp [kwFlagLookup, notFlagLookup, lookupD_cons, h1m]
              · simp [kwFlagLookup, notFlagLookup, lookupD_cons, ha, hb, hc, hd]
      · have h1m : ¬(k ∈ seen) := by simpa using h1
        rw [if_neg h1, ih (k :: seen)]
        by_cases ha : k = "anyOf"
        · subst ha
          simp [kwFlagLookup, notFlagLookup, lookupD_cons, h1m, List.contains_cons]
          cases harr : arrHasTrue v <;> simp [harr, Bool.or_assoc]
        · by_cases hb : k = "allOf"
          · subst hb
            simp [kwFlagLookup, notFlagLookup, lookupD_cons, h1m, List.contains_cons]
            cases harr : arrHasTrue v <;>
              cases hx : arrHasTrue (lookupD rest "anyOf" .null) <;>
                simp [harr, hx, Bool.or_assoc]
          · by_cases hc : k = "oneOf"
            · subst hc
              simp [kwFlagLookup, notFlagLookup, lookupD_cons, h1m, List.contains_cons]
              cases harr : arrHasTrue v <;>
                cases hx : arrHasTrue (lookupD rest "anyOf" .null) <;>
                  cases hy : arrHasTrue (lookupD rest "allOf" .null) <;>
                    simp [harr, hx, hy, Bool.or_assoc]
            · by_cases hd : k = "not"
              · subst hd
                simp [kwFlagLookup, notFlagLookup, lookupD_cons, h1m, List.contains_cons]
                cases he : elemHasTrue v <;>
                  cases hx : arrHasTrue (lookupD rest "anyOf" .null) <;>
                    cases hy : arrHasTrue (lookupD rest "allOf" .null) <;>
                      cases hz : arrHasTrue (lookupD rest "oneOf" .null) <;>
                        simp [he, hx, hy, hz, Bool.or_assoc]
              · have ha2 : ¬("anyOf" = k) := fun he => ha he.symm
                have hb2 : ¬("allOf" = k) := fun he => hb he.symm
                have hc2 : ¬("oneOf" = k) := fun he => hc he.symm
                have hd2 : ¬("not" = k) := fun he => hd he.symm
                simp [kwFlagLookup, notFlagLookup, lookupD_cons, ha, hb, hc, hd,
                  ha2, hb2, hc2, hd2, List.contains_cons, h1m]

/-- Flag propagation of the inliner on ref-free schemas: the
"contains refs" flag returned by `_inline_refs` is exactly "the boolean
`true` occurs at a traversed position"; `_inline_kw` reports the flag of
the elements under its keyword and changes no other key; `_inline_list`
reports the disjunction over its elements. -/
theorem inline_flag : ∀ (f : Nat),
    (∀ (root s s' : JVal) (c : Bool), noRef s = true →
        _inline_refs f root s = .ok (s', c) → c = elemHasTrue s) ∧
    (∀ (root : JVal) (m : Entries) (kw : String) (m' : Entries) (c : Bool),
        (match lookup m kw with | some v => noRef v = true | none => True) →
        _inline_kw f root m kw = .ok (m', c) →
        c = arrHasTrue (lookupD m kw .null) ∧
        ∀ k', ¬(kw = k') → lookup m' k' = lookup m k') ∧
    (∀ (root : JVal) (l l' : List JVal) (c : Bool), noRefList l = true →
        _inline_list f root l = .ok (l', c) → c = listHasTrue l) := by
  intro f
  induction f with
  | zero =>
      refine ⟨fun _ _ _ _ _ h => Except.noConfusion h,
              fun _ _ _ _ _ _ h => Except.noConfusion h,
              fun _ _ _ _ _ h => Except.noConfusion h⟩
  | succ f IH =>
      obtain ⟨IHrefs, IHkw, IHlist⟩ := IH
      refine ⟨?_, ?_, ?_⟩
      · intro root s s' c hnr h
        match s with
        | .bool true =>
            have hp := pure_ok.mp h
            injection hp with h1 h2
            subst h2
            decide
        | .bool false =>
            have hp := pure_ok.mp h
            injection hp with h1 h2
            subst h2
            decide
        | .null => exact Except.noConfusion h
        | .int n => exact Except.noConfusion h
        | .str st => exact Except.noConfusion h
        | .arr l => exact Except.noConfusion h
        | .obj m =>
            have hm : noRefEntries m = true := by simpa [noRef] using hnr
            simp only [_inline_refs] at h
            have htop : _inline_ref_top root m = pure (m, false) := by
              simp [_inline_ref_top, noRefEntries_no_ref hm]
            rw [htop] at h
            simp only [pure, Except.pure, Bind.bind, Except.bind] at h
            rcases bind_ok_iff.mp h with ⟨⟨m2, c2⟩, h3, h4⟩
            dsimp only at h4
            rcases bind_ok_iff.mp h4 with ⟨⟨m3, c3⟩, h5, h6⟩
            dsimp only at h6
            rcases bind_ok_iff.mp h6 with ⟨⟨m4, c4⟩, h7, h8⟩
            dsimp only at h8
            have hany := IHkw root m "anyOf" m2 c2 (by
              cases hl : lookup m "anyOf" with
              | none => trivial
              | some v => exact noRefEntries_lookup hm hl) h3
            have hall := IHkw root m2 "allOf" m3 c3 (by
              rw [hany.2 "allOf" (by decide)]
              cases hl : lookup m "allOf" with
              | none => trivial
              | some v => exact noRefEntries_lookup hm hl) h5
            have hone := IHkw root m3 "oneOf" m4 c4 (by
              rw [hall.2 "oneOf" (by decide), hany.2 "oneOf" (by decide)]
              cases hl : lookup m "oneOf" with
              | none => trivial
              | some v => exact noRefEntries_lookup hm hl) h7
            have hnotlk : lookup m4 "not" = lookup m "not" := by
              rw [hone.2 "not" (by decide), hall.2 "not" (by decide),
                hany.2 "not" (by decide)]
            have hall2 : c3 = arrHasTrue (lookupD m "allOf" .null) := by
              rw [hall.1]
              simp [lookupD, hany.2 "allOf" (by decide)]
            have hone2 : c4 = arrHasTrue (lookupD m "oneOf" .null) := by
              rw [hone.1]
              simp [lookupD, hall.2 "oneOf" (by decide), hany.2 "oneOf" (by decide)]
            rw [hnotlk] at h8
            have hgoal : c = (c2 || c3 || c4 || notFlagLookup m) := by
              cases hl : lookup m "not" with
              | none =>
                  rw [hl] at h8
                  simp only [pure, Except.pure, Bind.bind, Except.bind] at h8
                  have hp := pure_ok.mp h8
                  injection hp with hp1 hp2
                  subst hp2
                  simp [notFlagLookup, lookupD, hl, elemHasTrue]
              | some v =>
                  rw [hl] at h8
                  simp only [pure, Except.pure, Bind.bind, Except.bind] at h8
                  rcases bind_ok_iff.mp h8 with ⟨⟨v2, cv⟩, hv, hvp⟩
                  dsimp only at hvp
                  have hp := pure_ok.mp hvp
                  injection hp with hp1 hp2
                  subst hp2
                  rw [IHrefs root v v2 cv (noRefEntries_lookup hm hl) hv]
                  simp [notFlagLookup, lookupD, hl]
            rw [hgoal, hany.1, hall2, hone2]
            show _ = elemHasTrue (.obj m)
            rw [show elemHasTrue (.obj m) = entriesHasTrue [] m from rfl]
            rw [entriesHasTrue_lookup m []]
            simp [kwFlagLookup, notFlagLookup]
      · intro root m kw m' c hval h
        simp only [_inline_kw] at h
        cases hl : lookup m kw with
        | none =>
            rw [hl] at h
            simp only [pure, Except.pure] at h
            have hp := pure_ok.mp h
            injection hp with hp1 hp2
            subst hp1; subst hp2
            refine ⟨by simp [lookupD, hl, arrHasTrue], fun k' hk => rfl⟩
        | some v =>
            rw [hl] at h
            rw [hl] at hval
            match v, hval with
            | .arr l, hval =>
                simp only [pure, Except.pure, Bind.bind, Except.bind] at h
                rcases bind_ok_iff.mp h with ⟨⟨l2, cl⟩, hll, hp⟩
                dsimp only at hp
                have hp2 := pure_ok.mp hp
                injection hp2 with hq1 hq2
                subst hq1; subst hq2
                have hnl : noRefList l = true := by simpa [noRef] using hval
                refine ⟨?_, fun k' hk => lookup_setKey_ne hk⟩
                rw [IHlist root l l2 cl hnl hll]
                simp [lookupD, hl, arrHasTrue]
            | .null, hval => exact Except.noConfusion h
            | .bool b, hval => exact Except.noConfusion h
            | .int n, hval => exact Except.noConfusion h
            | .str st, hval => exact Except.noConfusion h
            | .obj mm, hval => exact Except.noConfusion h
      · intro root l l' c hnl h
        match l with
        | [] =>
            have hp := pure_ok.mp h
            injection hp with h1 h2
            subst h2
            decide
        | x :: xs =>
            simp only [_inline_list] at h
            simp only [pure, Except.pure, Bind.bind, Except.bind] at h
            rcases bind_ok_iff.mp h with ⟨⟨x2, cx⟩, hx, h2⟩
            dsimp only at h2
            rcases bind_ok_iff.mp h2 with ⟨⟨xs2, cxs⟩, hxs, hp⟩
            dsimp only at hp
            have hp2 := pure_ok.mp hp
            injection hp2 with hq1 hq2
            subst hq2
            simp only [noRefList, Bool.and_eq_true] at hnl
            rw [IHrefs root x x2 cx hnl.1 hx, IHlist root xs xs2 cxs hnl.2 hxs]
            rfl

theorem containsKey_append_self {m : Entries} {k : String} {v : JVal} :
    containsKey (m ++ [(k, v)]) k = true := by
  induction m with
  | nil => simp [containsKey]
  | cons p rest ih => simp [containsKey_cons, ih]

theorem containsKey_setKey_self {m : Entries} {k : String} {v : JVal} :
    containsKey (setKey m k v) k = true := by
  unfold setKey
  split
  · next hc =>
      induction m with
      | nil => simp [containsKey] at hc
      | cons p rest ih =>
          by_cases hp : p.1 = k
          · simp [List.map, containsKey_cons, hp]
          · have hb : (p.1 == k) = false := by simpa using hp
            rw [containsKey_cons, hb, Bool.false_or] at hc
            simp only [List.map, hb, Bool.false_eq_true, if_false, containsKey_cons,
              Bool.or_eq_true]
            exact Or.inr (by simpa using ih hc)
  · exact containsKey_append_self



/-- Claim C10: `_inline_refs` maps the boolean `true` to
`(NORM_TRUE, True)` but `false` to `(NORM_FALSE, False)`; consequently,
for every keyword-map with no `$ref` anywhere but with the boolean
`true` at a position the inliner traverses (an element of an `anyOf`,
`allOf` or `oneOf` list or a `not` value, recursively through those
positions), a successful `_normalize` run from an empty table reports
that references were inlined: it returns
`anyOf: [$ref: "#/$defs/<fingerprint>"]` and stores the DNF under the
fingerprint in the emitted table, rather than returning the DNF
directly. -/
theorem C10_true_treated_as_ref :
    (∀ (fuel : Nat) (root : JVal),
        _inline_refs (fuel + 1) root (.bool true) = .ok (NORM_TRUE, true)) ∧
    (∀ (fuel : Nat) (root : JVal),
        _inline_refs (fuel + 1) root (.bool false) = .ok (NORM_FALSE, false)) ∧
    (∀ (fuel : Nat) (root : JVal) (m : Entries) (r : JVal) (refs' : Entries),
        noRef (.obj m) = true → hasTrueLogical (.obj m) = true →
        _normalize fuel root (.obj m) [] = .ok (r, refs') →
        r = refAnyOf (fingerprint (.obj m)) ∧
        containsKey refs' (fingerprint (.obj m)) = true) := by
  refine ⟨fun _ _ => rfl, fun _ _ => rfl, ?_⟩
  intro fuel root m r refs' href htrue h
  match fuel with
  | 0 => exact Except.noConfusion h
  | f + 1 =>
      rw [show (f + 1 : Nat) = Nat.succ f from rfl, _normalize.eq_def] at h
      dsimp only at h
      rw [if_neg (by simp [containsKey])] at h
      rcases bind_ok_iff.mp h with ⟨⟨s1, contains⟩, h1, h2⟩
      dsimp only at h2
      have hcont : contains = true := by
        rw [(inline_flag f).1 root (.obj m) s1 contains href h1]
        rw [show elemHasTrue (.obj m) = hasTrueLogical (.obj m) from rfl]
        exact htrue
      subst hcont
      rcases bind_ok_iff.mp h2 with ⟨result, h3, h4⟩
      rcases bind_ok_iff.mp h4 with ⟨rm, h5, h6⟩
      rcases bind_ok_iff.mp h6 with ⟨branches, h7, h8⟩
      simp only [if_true] at h8
      rcases bind_ok_iff.mp h8 with ⟨⟨branches2, refs2⟩, h9, h10⟩
      dsimp only at h10
      have hp := pure_ok.mp h10
      injection hp with hp1 hp2
      subst hp1; subst hp2
      exact ⟨rfl, containsKey_setKey_self⟩

/-- Concrete C10 instance: the ref-free keyword-map `anyOf: [true]`. -/
def C10_m : Entries := [("anyOf", .arr [.bool true])]

/-- Fingerprint of the C10 instance. -/
def C10_fp : String := fingerprint (.obj C10_m)

/-- Claim C10, witness: the theorem applied to the concrete ref-free
keyword-map `anyOf: [true]`, whose normalization indeed returns the
`$ref` wrapper with the DNF stored under the fingerprint. -/
theorem C10_witness :
    JVal.obj [("anyOf", .arr [.obj [("$ref", .str ("#/$defs/" ++ C10_fp))]])]
      = refAnyOf C10_fp ∧
    containsKey (setKey [] C10_fp NORM_TRUE) C10_fp = true := by
  have h := (C10_true_treated_as_ref.2.2) 12 NORM_TRUE C10_m
    (refAnyOf C10_fp) (setKey [] C10_fp NORM_TRUE)
    (by decide) (by decide) (by rfl)
  exact ⟨h.1.symm ▸ rfl, h.2⟩

/-!
Claim C8. The first half of the claim holds: a keyword shared by both
operands with no registered merger raises the `NormalizationException`
naming it. The second half does not hold as stated: a keyword present in
only one operand is copied verbatim UNLESS it is one of the complex
keywords — `prefixItems` on either side is rewritten through
`_merge_prefix_items` (each element wrapped in an `allOf` with the other
side's `items` default), and a one-sided `properties` interacts with the
other side's `additionalProperties`.
-/

theorem lookup_append {a b : Entries} {k : String} :
    lookup (a ++ b) k = match lookup a k with
      | some v => some v
      | none => lookup b k := by
  induction a with
  | nil => simp [lookup]
  | cons p rest ih => by_cases hp : p.1 = k <;> simp [lookup_cons, hp, ih]

theorem merge_simple_stage_key {to_add : Entries} {p q : String × JVal}
    (h : _merge_simple_stage to_add p = .ok q) : q.1 = p.1 := by
  unfold _merge_simple_stage at h
  cases hl : lookup to_add p.1 with
  | none =>
      rw [hl] at h
      exact congrArg Prod.fst (pure_ok.mp h).symm
  | some w =>
      rw [hl] at h
      dsimp only at h
      by_cases hs : simpleMergerKeys.contains p.1 = true
      · rw [if_pos hs] at h
        rcases bind_ok_iff.mp h with ⟨v, hv, hp⟩
        rw [← pure_ok.mp hp]
      · rw [if_neg hs] at h
        by_cases hpp : (p.1 == "prefixItems" || p.1 == "properties") = true
        · rw [if_pos hpp] at h
          exact congrArg Prod.fst (pure_ok.mp h).symm
        · rw [if_neg hpp] at h
          exact Except.noConfusion h

theorem merge_stage2_containsKey {to_add : Entries} :
    ∀ {res r3 : Entries}, _merge_stage2 to_add res = .ok r3 →
    ∀ k, containsKey r3 k = containsKey res k := by
  intro res
  induction res with
  | nil =>
      intro r3 h k
      rw [(pure_ok.mp h).symm]
  | cons p rest ih =>
      intro r3 h k
      rw [_merge_stage2] at h
      rcases bind_ok_iff.mp h with ⟨q, hq, h2⟩
      rcases bind_ok_iff.mp h2 with ⟨rest2, hrest, hp⟩
      rw [(pure_ok.mp hp).symm]
      rw [containsKey_cons, containsKey_cons, merge_simple_stage_key hq, ih hrest k]

theorem merge_stage2_lookup_untouched {to_add : Entries} :
    ∀ {res r3 : Entries}, _merge_stage2 to_add res = .ok r3 →
    ∀ k, lookup to_add k = none → lookup r3 k = lookup res k := by
  intro res
  induction res with
  | nil =>
      intro r3 h k _
      rw [(pure_ok.mp h).symm]
  | cons p rest ih =>
      intro r3 h k hk
      rw [_merge_stage2] at h
      rcases bind_ok_iff.mp h with ⟨q, hq, h2⟩
      rcases bind_ok_iff.mp h2 with ⟨rest2, hrest, hp⟩
      rw [(pure_ok.mp hp).symm]
      have hkey := merge_simple_stage_key hq
      by_cases hpk : p.1 = k
      · have hq2 : q = p := by
          unfold _merge_simple_stage at hq
          rw [hpk, hk] at hq
          exact (pure_ok.mp hq).symm
        subst hq2
        rw [lookup_cons, lookup_cons]
        simp [hpk]
      · rw [lookup_cons, lookup_cons]
        have hb : (q.1 == k) = false := by simp [hkey, hpk]
        have hb2 : (p.1 == k) = false := by simpa using hpk
        rw [hb, hb2]
        simp only [Bool.false_eq_true, if_false]
        exact ih hrest k hk

theorem lookup_filter_key_true {m : Entries} {k : String}
    {pred : String × JVal → Bool} (hpred : ∀ p : String × JVal, p.1 = k → pred p = true) :
    lookup (m.filter pred) k = lookup m k := by
  induction m with
  | nil => simp [lookup]
  | cons p rest ih =>
      by_cases hp : p.1 = k
      · rw [List.filter_cons_of_pos (hpred p hp)]
        simp [lookup_cons, hp, ih]
      · cases hf : pred p
        · rw [List.filter_cons_of_neg (by simp [hf])]
          rw [lookup_cons]
          have hb : (p.1 == k) = false := by simpa using hp
          rw [hb]
          simp only [Bool.false_eq_true, if_false]
          exact ih
        · rw [List.filter_cons_of_pos hf]
          rw [lookup_cons, lookup_cons]
          have hb : (p.1 == k) = false := by simpa using hp
          rw [hb]
          simp only [Bool.false_eq_true, if_false]
          exact ih

theorem merge_stage2_first_unmergeable {to_add : Entries} :
    ∀ {res : Entries} {k0 : String} {v0 : JVal} {rest0 : Entries},
    res.filter (fun p => containsKey to_add p.1) = (k0, v0) :: rest0 →
    (∀ p : String × JVal, p ∈ res → containsKey to_add p.1 = true →
      simpleMergerKeys.contains p.1 = false ∧ ¬(p.1 = "prefixItems") ∧
      ¬(p.1 = "properties")) →
    _merge_stage2 to_add res
      = .error (.exc ("Do not know how to merge '" ++ k0 ++ "'")) := by
  intro res
  induction res with
  | nil => intro k0 v0 rest0 hf; simp at hf
  | cons p rest ih =>
      intro k0 v0 rest0 hf hall
      cases hc : containsKey to_add p.1 with
      | true =>
          simp only [List.filter_cons, hc, if_true] at hf
          have hinj := List.cons.inj hf
          have hk0 : p.1 = k0 := by
            have h1 := congrArg Prod.fst hinj.1
            simpa using h1
          obtain ⟨hns, hnp, hnq⟩ := hall p (by simp) hc
          rcases lookup_of_containsKey hc with ⟨w, hw⟩
          have hstage : _merge_simple_stage to_add p
              = .error (.exc ("Do not know how to merge '" ++ p.1 ++ "'")) := by
            unfold _merge_simple_stage
            rw [hw]
            dsimp only
            rw [if_neg (fun hcon => by rw [hns] at hcon; exact Bool.noConfusion hcon),
              if_neg (by simp [hnp, hnq])]
            rfl
          rw [_merge_stage2]
          rw [hk0] at hstage
          rw [hstage]
          rfl
      | false =>
          simp only [List.filter_cons, hc, Bool.false_eq_true, if_false] at hf
          have hstage : _merge_simple_stage to_add p = pure p := by
            unfold _merge_simple_stage
            rw [lookup_none_of_not_containsKey hc]
          rw [_merge_stage2, hstage]
          have := ih hf (fun q hq hcq => hall q (by simp [hq]) hcq)
          rw [show (pure p : Res (String × JVal)) = .ok p from rfl]
          simp only [Bind.bind, Except.bind]
          rw [this]

theorem mem_containsKey {m : Entries} {p : String × JVal} (h : p ∈ m) :
    containsKey m p.1 = true := by
  simp only [containsKey, List.any_eq_true]
  exact ⟨p, h, by simp⟩

theorem merge_complex_stage_lookup {result to_add r2 : Entries}
    (h : _merge_complex_stage result to_add = .ok r2) :
    ∀ k, ¬(k = "prefixItems") → ¬(k = "properties") →
      lookup r2 k = lookup result k := by
  intro k hk1 hk2
  unfold _merge_complex_stage at h
  rcases bind_ok_iff.mp h with ⟨r1, ha, hb⟩
  have hr1 : lookup r1 k = lookup result k := by
    unfold _merge_pi_stage at ha
    split at ha
    · rcases bind_ok_iff.mp ha with ⟨v, hv, hp⟩
      rw [← pure_ok.mp hp]
      exact lookup_setKey_ne (fun he => hk1 he.symm)
    · rw [← pure_ok.mp ha]
  have hr2 : lookup r2 k = lookup r1 k := by
    unfold _merge_props_stage at hb
    split at hb
    · rcases bind_ok_iff.mp hb with ⟨v, hv, hp⟩
      rw [← pure_ok.mp hp]
      exact lookup_setKey_ne (fun he => hk2 he.symm)
    · rw [← pure_ok.mp hb]
  rw [hr2, hr1]

/-- Claim C8, counterexample: `prefixItems` present in only ONE operand
is not copied verbatim — the complex merger rewrites each element into
an `allOf` with the other operand's defaulted `items`. -/
theorem C8_counterexample :
    _merge [] [("prefixItems", .arr [.bool true])]
      = .ok [("prefixItems", .arr [allOf2 NORM_TRUE (.bool true)])] ∧
    JVal.arr [allOf2 NORM_TRUE (.bool true)] ≠ .arr [.bool true] :=
  ⟨by decide, by decide⟩

/-- Claim C8 as amended: (first half, as claimed) when the two operands
share a keyword with no registered merger — here: every shared keyword is
unmergeable and there is at least one, with the complex keywords absent —
`_merge` raises the `NormalizationException` naming the first such
keyword in `result` order; (second half, corrected) every keyword present
in only one operand OTHER than the complex keywords `prefixItems` and
`properties` is copied verbatim into the result. -/
theorem C8_unmergeable_and_verbatim :
    (∀ (result to_add : Entries) (k0 : String) (v0 : JVal) (rest0 : Entries),
      containsKey result "prefixItems" = false →
      containsKey to_add "prefixItems" = false →
      containsKey result "properties" = false →
      containsKey to_add "properties" = false →
      result.filter (fun p => containsKey to_add p.1) = (k0, v0) :: rest0 →
      (∀ p : String × JVal, p ∈ result → containsKey to_add p.1 = true →
        simpleMergerKeys.contains p.1 = false) →
      _merge result to_add
        = .error (.exc ("Do not know how to merge '" ++ k0 ++ "'"))) ∧
    (∀ (result to_add r : Entries) (k : String) (v : JVal),
      _merge result to_add = .ok r →
      ¬(k = "prefixItems") → ¬(k = "properties") →
      ((lookup result k = some v ∧ lookup to_add k = none) ∨
       (lookup result k = none ∧ lookup to_add k = some v)) →
      lookup r k = some v) := by
  constructor
  · intro result to_add k0 v0 rest0 h1 h2 h3 h4 hf hsimple
    have hall : ∀ p : String × JVal, p ∈ result → containsKey to_add p.1 = true →
        simpleMergerKeys.contains p.1 = false ∧ ¬(p.1 = "prefixItems") ∧
        ¬(p.1 = "properties") := by
      intro p hp hcp
      refine ⟨hsimple p hp hcp, fun he => ?_, fun he => ?_⟩
      · have := mem_containsKey hp
        rw [he] at this
        rw [this] at h1
        exact Bool.noConfusion h1
      · have := mem_containsKey hp
        rw [he] at this
        rw [this] at h3
        exact Bool.noConfusion h3
    have hstage := merge_stage2_first_unmergeable hf hall
    have hcomplex : _merge_complex_stage result to_add = pure result := by
      have hpi : _merge_pi_stage result to_add = pure result := by
        unfold _merge_pi_stage
        rw [h1, h2]
        rfl
      have hpr : _merge_props_stage result to_add = pure result := by
        unfold _merge_props_stage
        rw [h3, h4]
        rfl
      unfold _merge_complex_stage
      rw [hpi]
      simp only [pure, Except.pure, Bind.bind, Except.bind]
      exact hpr
    unfold _merge
    rw [hcomplex]
    simp only [pure, Except.pure, Bind.bind, Except.bind]
    rw [hstage]
  · intro result to_add r k v h hk1 hk2 hcase
    unfold _merge at h
    rcases bind_ok_iff.mp h with ⟨r2, hc, h5⟩
    rcases bind_ok_iff.mp h5 with ⟨r3, hs, h6⟩
    have hr := pure_ok.mp h6
    have hlk2 : lookup r2 k = lookup result k :=
      merge_complex_stage_lookup hc k hk1 hk2
    rcases hcase with ⟨hl, hr0⟩ | ⟨hl, hr0⟩
    · have hlk3 : lookup r3 k = lookup r2 k :=
        merge_stage2_lookup_untouched hs k hr0
      rw [← hr, lookup_append]
      rw [hlk3, hlk2, hl]
    · have hck2 : containsKey r2 k = false := by
        cases hck : containsKey r2 k with
        | false => rfl
        | true =>
            rcases lookup_of_containsKey hck with ⟨w, hw⟩
            rw [hlk2, hl] at hw
            exact Option.noConfusion hw
      have hck3 : containsKey r3 k = false := by
        rw [merge_stage2_containsKey hs k, hck2]
      rw [← hr, lookup_append]
      rw [lookup_none_of_not_containsKey hck3]
      have hfilter : lookup (to_add.filter (fun p =>
          !containsKey r3 p.1 && !(p.1 == "prefixItems") && !(p.1 == "properties"))) k
          = lookup to_add k := by
        refine lookup_filter_key_true ?_
        intro p hp
        have e1 : (k == "prefixItems") = false := by simpa using hk1
        have e2 : (k == "properties") = false := by simpa using hk2
        rw [hp, hck3, e1, e2]
        rfl
      rw [hfilter, hr0]

/-- Claim C8, witness: both halves applied at concrete operands — the
shared unknown keyword `contains` raises naming it, and the one-sided
keyword `minimum` is copied verbatim. -/
theorem C8_witness :
    _merge [("contains", .int 1)] [("contains", .int 2)]
      = .error (.exc "Do not know how to merge 'contains'") ∧
    (∀ r : Entries, _merge [("minimum", .int 3)] [("maximum", .int 9)] = .ok r →
      lookup r "minimum" = some (.int 3)) := by
  constructor
  · exact C8_unmergeable_and_verbatim.1 [("contains", .int 1)] [("contains", .int 2)]
      "contains" (.int 1) [] (by decide) (by decide) (by decide) (by decide)
      (by decide) (by decide)
  · intro r hr
    exact C8_unmergeable_and_verbatim.2 [("minimum", .int 3)] [("maximum", .int 9)]
      r "minimum" (.int 3) hr (by decide) (by decide)
      (Or.inl ⟨by decide, by decide⟩)

/-- A `_merge` into the empty dict copies the operand verbatim when the
operand holds neither complex keyword (`prefixItems`, `properties`): no
complex merger fires, the walk over the empty `result` does nothing, and
the copy loop takes every entry. -/
theorem merge_nil_identity (m : Entries)
    (h1 : containsKey m "prefixItems" = false)
    (h2 : containsKey m "properties" = false) :
    _merge [] m = .ok m := by
  have hpi : _merge_pi_stage [] m = pure [] := by
    unfold _merge_pi_stage
    rw [h1]
    rfl
  have hpr : _merge_props_stage [] m = pure [] := by
    unfold _merge_props_stage
    rw [h2]
    rfl
  have hc : _merge_complex_stage [] m = pure [] := by
    unfold _merge_complex_stage
    rw [hpi]
    simp only [pure, Except.pure, Bind.bind, Except.bind]
    exact hpr
  have hall : ∀ p ∈ m, (!containsKey ([] : Entries) p.1
      && !(p.1 == "prefixItems") && !(p.1 == "properties")) = true := by
    intro p hp
    have hcp := mem_containsKey hp
    have e1 : (p.1 == "prefixItems") = false := by
      cases he : p.1 == "prefixItems" with
      | false => rfl
      | true =>
          have heq : p.1 = "prefixItems" := by simpa using he
          rw [heq] at hcp
          rw [hcp] at h1
          exact Bool.noConfusion h1
    have e2 : (p.1 == "properties") = false := by
      cases he : p.1 == "properties" with
      | false => rfl
      | true =>
          have heq : p.1 = "properties" := by simpa using he
          rw [heq] at hcp
          rw [hcp] at h2
          exact Bool.noConfusion h2
    rw [e1, e2]
    rfl
  have hf := List.filter_eq_self.mpr hall
  unfold _merge
  rw [hc]
  simp only [pure, Except.pure, Bind.bind, Except.bind, _merge_stage2]
  rw [List.nil_append, hf]

/-- `mapM` over a mapped list composes the functions (`Res` monad). -/
theorem res_mapM_map {α γ β : Type} (g : α → γ) (f : γ → Res β) :
    ∀ l : List α, (l.map g).mapM f = l.mapM (fun a => f (g a))
  | [] => by rw [List.map_nil, List.mapM_nil, List.mapM_nil]
  | x :: xs => by
      rw [List.map_cons, List.mapM_cons, List.mapM_cons, res_mapM_map g f xs]

/-- `mapM` over `List.range` succeeds pointwise: when the body returns
`.ok (g i)` below `n`, the traversal returns the mapped range. -/
theorem res_mapM_range {β : Type} :
    ∀ (n : Nat) (f : Nat → Res β) (g : Nat → β),
      (∀ i, i < n → f i = .ok (g i)) →
      (List.range n).mapM f = .ok ((List.range n).map g)
  | 0, _, _, _ => by
      rw [List.range_zero, List.mapM_nil, List.map_nil]
      rfl
  | n + 1, f, g, h => by
      have ih := res_mapM_range n (fun i => f (i + 1)) (fun i => g (i + 1))
        (fun i hi => h (i + 1) (Nat.succ_lt_succ hi))
      have ih2 : (List.range n).mapM (fun a => f (Nat.succ a))
          = .ok ((List.range n).map fun i => g (i + 1)) := ih
      rw [List.range_succ_eq_map, List.mapM_cons, res_mapM_map, ih2, h 0 (Nat.succ_pos n)]
      simp only [Bind.bind, Except.bind, pure, Except.pure, List.map_cons, List.map_map]
      rfl

/-- Reading every position of a list back off `List.range` reproduces
the list. -/
theorem map_getD_range {α : Type} (d : α) :
    ∀ l : List α, (List.range l.length).map (fun i => l.getD i d) = l
  | [] => by simp
  | x :: xs => by
      rw [List.length_cons, List.range_succ_eq_map, List.map_cons, List.map_map]
      have hcomp : ((fun i => (x :: xs).getD i d) ∘ Nat.succ) = fun i => xs.getD i d := by
        funext i
        simp [Function.comp]
      rw [List.getD_cons_zero, hcomp, map_getD_range d xs]

/-- One output branch of `merge_simple` on `NORM_TRUE` and an `anyOf`
list of dicts: the `{}` branch of `NORM_TRUE` merges to nothing, and
branch `idx` of the second operand is then copied verbatim when it holds
no complex keyword. -/
theorem C7_branch (ms : List Entries) (idx : Nat) (hidx : idx < ms.length)
    (hok : ∀ m ∈ ms, containsKey m "prefixItems" = false ∧
      containsKey m "properties" = false) :
    mergeSimpleBranch [[JVal.obj []], ms.map JVal.obj] idx
      = .ok (ms.getD idx []) := by
  have hne : (ms.map JVal.obj).isEmpty = false := by
    cases ms with
    | nil => exact absurd hidx (by simp)
    | cons a l => rfl
  have hmem : ms.getD idx [] ∈ ms := by
    rw [List.getD_eq_getElem?_getD, List.getElem?_eq_getElem hidx]
    exact List.getElem_mem hidx
  obtain ⟨hp1, hp2⟩ := hok _ hmem
  have hgd : (ms.map JVal.obj).getD (idx % (ms.map JVal.obj).length) JVal.null
      = .obj (ms.getD idx []) := by
    rw [List.length_map, Nat.mod_eq_of_lt hidx]
    rw [List.getD_eq_getElem?_getD, List.getD_eq_getElem?_getD, List.getElem?_map]
    rw [List.getElem?_eq_getElem hidx]
    rfl
  unfold mergeSimpleBranch
  rw [List.foldlM_cons]
  simp only [List.isEmpty_cons, Bool.false_eq_true, if_false,
    List.length_cons, List.length_nil, Nat.zero_add, Nat.mod_one,
    List.getD_cons_zero, asObj, Bind.bind, Except.bind, pure, Except.pure]
  rw [show _merge ([] : Entries) ([] : Entries) = Except.ok [] from rfl]
  dsimp only
  rw [List.foldlM_cons]
  simp only [hne, Bool.false_eq_true, if_false, hgd, asObj,
    Bind.bind, Except.bind, pure, Except.pure]
  rw [merge_nil_identity (ms.getD idx []) hp1 hp2]
  dsimp only
  rw [List.foldlM_nil]
  rfl

/-- Claim C7 as amended: for `X = {anyOf: bs}` with `bs` a nonempty
list of dicts none of which holds the complex keywords `prefixItems` or
`properties`, `merge [NORM_TRUE, X]` returns exactly `X` - not merely up
to branch reordering. The restriction is necessary (see
`C7_counterexample`). -/
theorem C7_true_merge_identity (ms : List Entries) (hne : ms ≠ [])
    (hok : ∀ m ∈ ms, containsKey m "prefixItems" = false ∧
      containsKey m "properties" = false) :
    merge [NORM_TRUE, .obj [("anyOf", .arr (ms.map .obj))]]
      = .ok (.obj [("anyOf", .arr (ms.map .obj))]) := by
  have hlen : 1 ≤ ms.length := by
    cases ms with
    | nil => exact absurd rfl hne
    | cons a l => exact Nat.succ_le_succ (Nat.zero_le _)
  unfold merge merge_simple
  simp only [List.isEmpty_cons, Bool.false_eq_true, if_false]
  rw [List.mapM_cons, List.mapM_cons, List.mapM_nil]
  simp only [asObj, NORM_TRUE, Bind.bind, Except.bind, pure, Except.pure]
  rw [show lookup [("anyOf", JVal.arr [JVal.obj []])] "anyOf"
    = some (JVal.arr [JVal.obj []]) from rfl]
  rw [show lookup [("anyOf", JVal.arr (List.map JVal.obj ms))] "anyOf"
    = some (JVal.arr (List.map JVal.obj ms)) from rfl]
  dsimp only
  rw [show List.foldl Nat.max 0 (List.map List.length [[JVal.obj []], List.map JVal.obj ms])
    = Nat.max 1 (List.map JVal.obj ms).length from rfl]
  rw [List.length_map]
  rw [show Nat.max 1 ms.length = ms.length from Nat.max_eq_right hlen]
  rw [res_mapM_range ms.length _ (fun i => ms.getD i [])
    (fun i hi => C7_branch ms i hi hok)]
  dsimp only
  rw [map_getD_range ([] : Entries) ms]

/-- Claim C7, counterexample: for the branch `{prefixItems: [true]}`
the complex merger rewrites the element into an `allOf` with the other
operand's defaulted `items`, so the result of merging with `NORM_TRUE`
does not equal `X` under ANY reordering of the output branch list. -/
theorem C7_counterexample :
    merge [NORM_TRUE, .obj [("anyOf",
        .arr [.obj [("prefixItems", .arr [.bool true])]])]]
      = .ok (.obj [("anyOf", .arr [.obj [("prefixItems",
          .arr [allOf2 NORM_TRUE (.bool true)])]])]) ∧
    (∀ cs : List JVal,
      merge [NORM_TRUE, .obj [("anyOf",
          .arr [.obj [("prefixItems", .arr [.bool true])]])]]
        = .ok (.obj [("anyOf", .arr cs)]) →
      ¬ cs.Perm [.obj [("prefixItems", .arr [.bool true])]]) := by
  constructor
  · decide
  · intro cs h hp
    have hv : (Except.ok (JVal.obj [("anyOf", .arr [.obj [("prefixItems",
        .arr [allOf2 NORM_TRUE (.bool true)])]])]) : Res JVal)
        = .ok (.obj [("anyOf", .arr cs)]) :=
      (by decide : merge [NORM_TRUE, .obj [("anyOf",
        .arr [.obj [("prefixItems", .arr [.bool true])]])]]
        = .ok (.obj [("anyOf", .arr [.obj [("prefixItems",
            .arr [allOf2 NORM_TRUE (.bool true)])]])])).symm.trans h
    simp only [Except.ok.injEq, JVal.obj.injEq, List.cons.injEq, Prod.mk.injEq,
      JVal.arr.injEq, and_true, true_and] at hv
    subst hv
    rw [List.perm_singleton] at hp
    exact absurd hp (by decide)

/-- Claim C7, witness: the amended identity applied at the one-branch
schema `{anyOf: [{minimum: 3}]}`. -/
theorem C7_witness :
    merge [NORM_TRUE, .obj [("anyOf",
        .arr (([[("minimum", .int 3)]] : List Entries).map .obj))]]
      = .ok (.obj [("anyOf",
        .arr (([[("minimum", .int 3)]] : List Entries).map .obj))]) :=
  C7_true_merge_identity [[("minimum", .int 3)]] (by decide) (by decide)

/-- Claim C4: `normalize` mutates its input. In the source, `_inline_refs`
rewrites logical-keyword elements by assigning into `schema[kw][idx]` in
place (line 233); when the top level has no `$ref` the argument dict is
never rebound, so the write lands in the very list object that `normalize`
shares with the caller through its shallow `dict(schema)` copy (line 349).
This theorem shows on the model that the pass maps the content of the
shared `anyOf` list from `[true]` to `[NORM_TRUE]` - two different values,
so the single list object the caller still holds has changed content after
the call. (`_merge_prefix_items` likewise pads the shorter `prefixItems`
list in place with `+=`, source lines 107 and 110.) -/
theorem C4_inline_refs_rewrites_shared_list :
    _inline_refs 5 (.obj [("anyOf", .arr [.bool true])])
        (.obj [("anyOf", .arr [.bool true])])
      = .ok (.obj [("anyOf", .arr [NORM_TRUE])], true) ∧
    JVal.arr [NORM_TRUE] ≠ .arr [.bool true] :=
  ⟨by decide, by decide⟩
